import Mathlib

/-!
Verification of the equitable resource allocation engine of the repository
(`scaling-algo`: `allocateResources`, `calculateGini`, `createEmptyAllocation`).

Numeric model: the source language's numbers are modeled by `JQ := Option ℚ`.
`some q` is a finite value and `none` is the non-finite marker (NaN).  NaN
really matters here: the source computes `0/0` when the total eligible demand
is zero, and every arithmetic operation and comparison must propagate it the
way the source language does (every comparison with NaN is false, NaN is
falsy).  Division by zero is mapped to `none`; in the source language a
nonzero dividend over zero gives an infinity instead of NaN, but that
combination is unreachable in this code for the inputs treated in this
development (the only zero divisor that can arise with non-negative amounts
is the `0/0` of a zero total demand), so a single non-finite marker is
faithful here.  Finite arithmetic is modeled exactly (rationals); the spec
itself describes the allocator over real-valued arithmetic.

The audit collaborator `createTrailEntry` (imported from an external package,
not part of the repository sources) is modeled as an explicit `sink`
parameter returning `Except`, mirroring the fact that in the source a throw
inside the collaborator propagates out of the unguarded call.  Wall-clock
reads (`Date.now()`, `new Date().toISOString()`) are modeled by an explicit
`Clock` parameter.
-/

attribute [local semireducible] Rat.add Rat.mul Rat.sub Rat.inv Rat.ofScientific

namespace QDI

/-- Numbers of the embedded program: a finite rational or the NaN marker. -/
abbrev JQ := Option ℚ

def jsAdd : JQ → JQ → JQ
  | some a, some b => some (a + b)
  | _, _ => none

def jsSub : JQ → JQ → JQ
  | some a, some b => some (a - b)
  | _, _ => none

def jsMul : JQ → JQ → JQ
  | some a, some b => some (a * b)
  | _, _ => none

/-- Division. A zero divisor yields the non-finite marker (see the header note). -/
def jsDiv : JQ → JQ → JQ
  | some a, some b => if b = 0 then none else some (a / b)
  | _, _ => none

def jsFloor : JQ → JQ
  | some a => some ((⌊a⌋ : ℤ) : ℚ)
  | none => none

def jsMin : JQ → JQ → JQ
  | some a, some b => some (min a b)
  | _, _ => none

def jsMax : JQ → JQ → JQ
  | some a, some b => some (max a b)
  | _, _ => none

/-- Comparison `a < b`; false whenever an operand is NaN. -/
def jsLtB : JQ → JQ → Bool
  | some a, some b => decide (a < b)
  | _, _ => false

/-- Comparison `a <= b`; false whenever an operand is NaN. -/
def jsLeB : JQ → JQ → Bool
  | some a, some b => decide (a ≤ b)
  | _, _ => false

/-- Comparison `a > b`; false whenever an operand is NaN. -/
def jsGtB : JQ → JQ → Bool
  | some a, some b => decide (b < a)
  | _, _ => false

/-- Comparison `a >= b`; false whenever an operand is NaN. -/
def jsGeB : JQ → JQ → Bool
  | some a, some b => decide (b ≤ a)
  | _, _ => false

/-- Strict equality test `a === b`; false whenever an operand is NaN. -/
def jsEqB : JQ → JQ → Bool
  | some a, some b => decide (a = b)
  | _, _ => false

/-- Truthiness of a number: zero and NaN are falsy. -/
def jsTruthy : JQ → Bool
  | some a => decide (a ≠ 0)
  | none => false

/-- One demand request, mirroring the source's `DemandInfo` record.  The
optional fields distinguish an absent value from a present (possibly
non-finite) one, mirroring the semantics of the source's `??` defaulting,
which does not trigger on NaN. -/
structure DemandInfo where
  agent_id : String
  resource_type : String
  amount : JQ
  timezone : Option String
  coherence_score : Option JQ
  timestamp : String
deriving DecidableEq

/-- One output allocation record. -/
structure Allocation where
  agent_id : String
  allocated : JQ
  requested : JQ
  fill_rate : JQ
deriving DecidableEq

structure FairnessMetrics where
  gini_coefficient : JQ
  min_fill_rate : JQ
  max_fill_rate : JQ
  avg_fill_rate : JQ
  timezone_parity : JQ
deriving DecidableEq

structure ProvenanceInfo where
  atom_tag : String
  trail_id : String
deriving DecidableEq

structure AllocationResult where
  allocations : List Allocation
  total_allocated : JQ
  total_requested : JQ
  efficiency : JQ
  fairness_metrics : FairnessMetrics
  timestamp : String
  provenance : ProvenanceInfo
deriving DecidableEq

/-- Audit record handed to the provenance collaborator. -/
structure AtomDecision where
  atom_tag : String
  type : String
  description : String
  timestamp : String
  tags : List String
  freshness : String
  verified : Bool
deriving DecidableEq

/-- Return value of the provenance collaborator; only its `id` is read. -/
structure TrailEntry where
  id : String
deriving DecidableEq

/-- Wall-clock values read during one invocation: the millisecond stamp used
in the atom tag, and the two ISO timestamps taken for the decision and for
the result. -/
structure Clock where
  nowMs : Nat
  isoDecision : String
  isoResult : String
deriving DecidableEq

/-- Ordering relation used to model the source's ascending numeric sort
`values.sort((a, b) => a - b)`.  The source language's sort is stable, and a
stable sort with respect to this total preorder on finite values is exactly
`List.insertionSort`. -/
def jqLe (a b : JQ) : Prop := jsLeB a b = true

instance : DecidableRel jqLe := fun a b => instDecidableEqBool (jsLeB a b) true

/-- Indexed coefficient sum of `calculateGini`: position `i` (0-based)
contributes `(2*(i+1) - n - 1) * sorted[i]`.  The source accumulates this
left-to-right from 0; reassociating the additions is observationally equal
over `JQ` (addition is commutative, associative, and NaN-absorbing on both
sides). -/
def giniSum : List JQ → ℤ → ℤ → JQ
  | [], _, _ => some 0
  | x :: xs, n, i => jsAdd (jsMul (some ((2 * (i + 1) - n - 1 : ℤ) : ℚ)) x) (giniSum xs n (i + 1))

/-- Gini coefficient of a list of values, mirroring `calculateGini` of the
source: sort ascending, take the indexed coefficient sum, divide by
`n * n * mean` unless that denominator is falsy (zero or NaN), in which case
divide by 1. -/
def calculateGini (values : List JQ) : JQ :=
  if values.length = 0 then some 0
  else
    let sorted := List.insertionSort jqLe values
    let n : ℤ := values.length
    let s := giniSum sorted n 0
    let mean := jsDiv (sorted.foldl jsAdd (some 0)) (some ((n : ℚ)))
    let denom := jsMul (jsMul (some ((n : ℚ))) (some ((n : ℚ)))) mean
    jsDiv s (if jsTruthy denom then denom else some 1)

/-- Rational-level mirror of `giniSum`, used to reason about `calculateGini`
on lists of finite values. -/
def giniSumQ : List ℚ → ℤ → ℤ → ℚ
  | [], _, _ => 0
  | x :: xs, n, i => ((2 * (i + 1) - n - 1 : ℤ) : ℚ) * x + giniSumQ xs n (i + 1)

/-- Rational-level mirror of `calculateGini` on lists of finite values; the
`|| 1` of the source becomes the conditional denominator. -/
def calculateGiniQ (values : List ℚ) : ℚ :=
  if values.length = 0 then 0
  else
    let sorted := List.insertionSort (fun a b => a ≤ b) values
    let n : ℤ := values.length
    let s := giniSumQ sorted n 0
    let mean := sorted.sum / ((n : ℚ))
    let denom := ((n : ℚ)) * ((n : ℚ)) * mean
    s / (if denom = 0 then 1 else denom)

/-- Baseline coherence constant of the source (`BASELINE_COHERENCE = 80`). -/
def BASELINE_COHERENCE : JQ := some 80

/-- Eligibility threshold of the source, `BASELINE_COHERENCE * 0.8`.  In the
source's binary floating point, `80 * 0.8` rounds to exactly `64`. -/
def MIN_COHERENCE_THRESHOLD : JQ := some 64

/-- Effective quality score: the coherence score when present (even if
non-finite), else the baseline 80.  Mirrors `d.coherence_score ?? 80`. -/
def effectiveScore (d : DemandInfo) : JQ := d.coherence_score.getD (some 80)

def validDemands (demands : List DemandInfo) : List DemandInfo :=
  demands.filter fun d => jsGeB (effectiveScore d) MIN_COHERENCE_THRESHOLD

def invalidDemands (demands : List DemandInfo) : List DemandInfo :=
  demands.filter fun d => jsLtB (effectiveScore d) MIN_COHERENCE_THRESHOLD

/-- Total weighted demand over the eligible requests.  The source gives every
adjusted demand the constant weight `1.0` (and its `coherence` field is never
read afterwards), so the weight multiplication is by `1`. -/
def totalWeightedDemand (valid : List DemandInfo) : JQ :=
  valid.foldl (fun s d => jsAdd s (jsMul d.amount (some 1))) (some 0)

/-- Initial allocation of one eligible demand: floor of the proportional
share, bumped to `min(1, capacity)` when the floor is exactly zero while
capacity and the requested amount are positive.  Note the `=== 0` test is
false on NaN, so a NaN floor is not bumped. -/
def initialAllocation (total capacity : JQ) (d : DemandInfo) : Allocation :=
  let proportion := jsDiv (jsMul d.amount (some 1)) total
  let floored := jsFloor (jsMul proportion capacity)
  let allocated :=
    if jsEqB floored (some 0) && jsGtB capacity (some 0) && jsGtB d.amount (some 0) then
      jsMin (some 1) capacity
    else floored
  { agent_id := d.agent_id
    allocated := allocated
    requested := d.amount
    fill_rate := if jsGtB d.amount (some 0) then jsDiv allocated d.amount else some 1 }

def validAllocations (demands : List DemandInfo) (capacity : JQ) : List Allocation :=
  (validDemands demands).map
    (initialAllocation (totalWeightedDemand (validDemands demands)) capacity)

def invalidAllocations (demands : List DemandInfo) : List Allocation :=
  (invalidDemands demands).map fun d =>
    { agent_id := d.agent_id, allocated := some 0, requested := d.amount, fill_rate := some 0 }

/-- Running total `reduce((sum, a) => sum + a.allocated, 0)` of the source. -/
def sumAllocated (l : List Allocation) : JQ :=
  l.foldl (fun s a => jsAdd s a.allocated) (some 0)

/-- Neediness test of the redistribution loop: `a.allocated < a.requested`. -/
def needyB (a : Allocation) : Bool := jsLtB a.allocated a.requested

/-- Sort key of the redistribution loop, `(a, b) => a.fill_rate - b.fill_rate`,
lifted to the index-tagged allocations (see `selectNeedy`). -/
def fillLe (x y : ℕ × Allocation) : Prop := jsLeB x.2.fill_rate y.2.fill_rate = true

instance : DecidableRel fillLe := fun x y =>
  instDecidableEqBool (jsLeB x.2.fill_rate y.2.fill_rate) true

/-- Selection step of the redistribution loop.  The source filters the
eligible allocation objects down to the needy ones, stably sorts the filtered
array of references ascending by fill rate, and mutates its first element.
Tagging each allocation with its index in `allocs` models which object the
sorted array's head aliases. -/
def selectNeedy (allocs : List Allocation) : Option (ℕ × Allocation) :=
  (List.insertionSort fillLe ((allocs.enum).filter fun p => needyB p.2)).head?

/-- Mutation performed on the selected needy allocation: one more unit, and
the fill rate is recomputed as `allocated / requested`. -/
def grantUnit (a : Allocation) : Allocation :=
  let newAllocated := jsAdd a.allocated (some 1)
  { a with allocated := newAllocated, fill_rate := jsDiv newAllocated a.requested }

/-- Fueled form of the source's `while (remaining > 0)` redistribution loop.
Each iteration either stops (no needy allocation left) or grants one unit and
decreases `remaining` by exactly one. -/
def redistribute : List Allocation → JQ → ℕ → List Allocation × JQ
  | allocs, remaining, 0 => (allocs, remaining)
  | allocs, remaining, fuel + 1 =>
    if jsGtB remaining (some 0) then
      match selectNeedy allocs with
      | none => (allocs, remaining)
      | some (j, a) => redistribute (allocs.set j (grantUnit a)) (jsSub remaining (some 1)) fuel
    else (allocs, remaining)

/-- Fuel that makes `redistribute` implement the unbounded source loop: the
loop runs at most `⌈remaining⌉` iterations, since every iteration decreases
`remaining` by one and it stops as soon as `remaining ≤ 0` (or on NaN, whose
comparison with 0 is false).  `redistribute_complete` below certifies this
bound. -/
def loopFuel : JQ → ℕ
  | none => 0
  | some r => (⌈r⌉ : ℤ).toNat

/-- Eligible allocations after the redistribution loop has finished. -/
def finalValidAllocations (demands : List DemandInfo) (capacity : JQ) : List Allocation :=
  let va := validAllocations demands capacity
  let remaining := jsSub capacity (sumAllocated va)
  (redistribute va remaining (loopFuel remaining)).1

/-- Combined allocation list: eligible first (in input order, post-loop),
then ineligible (in input order).  The source builds the combined array
before the loop out of shared references, so the loop's in-place updates are
visible here. -/
def allAllocations (demands : List DemandInfo) (capacity : JQ) : List Allocation :=
  finalValidAllocations demands capacity ++ invalidAllocations demands

/-- Insertion of one rate into the ordered group list, mirroring the
`Map<string, number[]>` of the source: keys appear in first-insertion order
and each key's rates are appended in arrival order. -/
def pushRate : List (String × List JQ) → String → JQ → List (String × List JQ)
  | [], t, r => [(t, [r])]
  | (t2, rs) :: rest, t, r =>
    if t2 = t then (t2, rs ++ [r]) :: rest else (t2, rs) :: pushRate rest t r

/-- Pairs iterated by the timezone-parity loop of the source: for each index
below the number of eligible demands, the demand's timezone (defaulted to
`"UTC"`) together with `allocations[i]?.fill_rate ?? 0`. -/
def tzPairs (valid : List DemandInfo) (allocations : List Allocation) : List (String × JQ) :=
  (List.range valid.length).map fun i =>
    (((valid[i]?).bind fun d => d.timezone).getD ("UTC"),
     match allocations[i]? with
     | some a => a.fill_rate
     | none => some 0)

def tzGroups (pairs : List (String × JQ)) : List (String × List JQ) :=
  pairs.foldl (fun acc p => pushRate acc p.1 p.2) []

/-- Mean of a list of rates, `rates.reduce((a, b) => a + b, 0) / rates.length`. -/
def jsMean (rs : List JQ) : JQ :=
  jsDiv (rs.foldl jsAdd (some 0)) (some ((rs.length : ℚ)))

def tzMeans (pairs : List (String × JQ)) : List JQ :=
  (tzGroups pairs).map fun g => jsMean g.2

/-- Population variance of the group means; defined as 0 with fewer than two
groups, exactly as in the source's ternary.  The source recomputes the
average inside every fold iteration from the same list, which is `jsMean
means` each time. -/
def tzVariance (means : List JQ) : JQ :=
  if 1 < means.length then
    jsDiv (means.foldl
        (fun s m => jsAdd s (jsMul (jsSub m (jsMean means)) (jsSub m (jsMean means))))
        (some 0))
      (some ((means.length : ℚ)))
  else some 0

/-- Timezone parity metric: `max(0, 100 - variance * 100)` over the eligible
demands' fill rates grouped by timezone. -/
def timezoneParity (demands : List DemandInfo) (capacity : JQ) : JQ :=
  jsMax (some 0)
    (jsSub (some 100)
      (jsMul
        (tzVariance (tzMeans (tzPairs (validDemands demands) (allAllocations demands capacity))))
        (some 100)))

/-- Fold of `Math.min` over a spread argument list.  The empty case never
arises in the source (the metric is computed only when at least one eligible
allocation exists); it is mapped to the non-finite marker. -/
def jsMinList : List JQ → JQ
  | [] => none
  | h :: t => t.foldl jsMin h

/-- Fold of `Math.max` over a spread argument list; empty case as in
`jsMinList`. -/
def jsMaxList : List JQ → JQ
  | [] => none
  | h :: t => t.foldl jsMax h

/-- Rendering of a number into the audit description string.  The exact
decimal formatting of the source is abstracted; the string is consumed only
by the audit sink and never influences the allocation result. -/
def jqText : JQ → String
  | none => ("NaN")
  | some q => toString q

def describeAllocation (totalAllocated capacity : JQ) (n : ℕ) : String :=
  ("Allocated ") ++ jqText totalAllocated ++ ("/") ++ jqText capacity ++
    (" resources across ") ++ toString n ++ (" agents")

/-- Audit decision record built on the successful allocation path. -/
def allocDecision (demands : List DemandInfo) (capacity : JQ) (clock : Clock) : AtomDecision :=
  { atom_tag := ("ATOM-ALLOC-") ++ toString clock.nowMs
    type := ("ENHANCE")
    description := describeAllocation (sumAllocated (allAllocations demands capacity)) capacity
      (allAllocations demands capacity).length
    timestamp := clock.isoDecision
    tags := [("allocation"), ("fairness"), ("scaling")]
    freshness := ("fresh")
    verified := false }

/-- Audit decision record built when no demand meets the threshold. -/
def emptyDecision (clock : Clock) : AtomDecision :=
  { atom_tag := ("ATOM-ALLOC-") ++ toString clock.nowMs
    type := ("VERIFY")
    description := ("No valid demands meeting coherence threshold")
    timestamp := clock.isoDecision
    tags := [("allocation"), ("empty")]
    freshness := ("fresh")
    verified := true }

/-- Empty allocation result returned when no demand meets the coherence
threshold.  The unguarded call to the audit collaborator is the monadic bind:
a collaborator error propagates. -/
def createEmptyAllocation (sink : AtomDecision → Except String TrailEntry) (clock : Clock)
    (demands : List DemandInfo) (capacity : JQ) : Except String AllocationResult :=
  let decision := emptyDecision clock
  match sink decision with
  | Except.error e => Except.error e
  | Except.ok trail =>
    Except.ok
      { allocations := demands.map fun d =>
          { agent_id := d.agent_id, allocated := some 0, requested := d.amount,
            fill_rate := some 0 }
        total_allocated := some 0
        total_requested := demands.foldl (fun s d => jsAdd s d.amount) (some 0)
        efficiency := some 0
        fairness_metrics :=
          { gini_coefficient := some 0, min_fill_rate := some 0, max_fill_rate := some 0,
            avg_fill_rate := some 0, timezone_parity := some 100 }
        timestamp := clock.isoResult
        provenance := { atom_tag := decision.atom_tag, trail_id := trail.id } }

/-- Shallow embedding of `allocateResources(demands, capacity)`.  `sink`
stands for the external `createTrailEntry` collaborator and `clock` for the
wall-clock reads; the numeric computation touches neither. -/
def allocateResources (sink : AtomDecision → Except String TrailEntry) (clock : Clock)
    (demands : List DemandInfo) (capacity : JQ) : Except String AllocationResult :=
  if (validDemands demands).length = 0 then
    createEmptyAllocation sink clock demands capacity
  else
    let allocations := allAllocations demands capacity
    let totalAllocated := sumAllocated allocations
    let totalRequested := allocations.foldl (fun s a => jsAdd s a.requested) (some 0)
    let rates := allocations.map fun a => a.fill_rate
    let decision := allocDecision demands capacity clock
    match sink decision with
    | Except.error e => Except.error e
    | Except.ok trail =>
      Except.ok
      { allocations := allocations
        total_allocated := totalAllocated
        total_requested := totalRequested
        efficiency :=
          if jsGtB capacity (some 0) then jsMul (jsDiv totalAllocated capacity) (some 100)
          else some 0
        fairness_metrics :=
          { gini_coefficient := calculateGini rates
            min_fill_rate := jsMinList rates
            max_fill_rate := jsMaxList rates
            avg_fill_rate := jsMean rates
            timezone_parity := timezoneParity demands capacity }
        timestamp := clock.isoResult
        provenance := { atom_tag := decision.atom_tag, trail_id := trail.id } }

/-- Audit sink that always succeeds; used to run the engine on concrete
inputs. -/
def okSink : AtomDecision → Except String TrailEntry := fun _ => Except.ok { id := ("trail-1") }

/-- Audit sink that always fails, modeling an unreachable or erroring
provenance collaborator. -/
def failSink (msg : String) : AtomDecision → Except String TrailEntry := fun _ => Except.error msg

def clock0 : Clock := { nowMs := 0, isoDecision := ("t0"), isoResult := ("t1") }

/-- Helper to build a demand record on concrete inputs. -/
def mkD (id : String) (amt : JQ) (tz : Option String) (sc : Option JQ) : DemandInfo :=
  { agent_id := id, resource_type := ("compute"), amount := amt, timezone := tz,
    coherence_score := sc, timestamp := ("t") }

/-- Zero allocation produced for an ineligible demand (and, on the empty
path, for every demand). -/
def zeroAllocationOf (d : DemandInfo) : Allocation :=
  { agent_id := d.agent_id, allocated := some 0, requested := d.amount, fill_rate := some 0 }

/-- Group keys of a tagged rate list in order of first appearance. -/
def firstKeys (pairs : List (String × JQ)) : List String :=
  pairs.foldl (fun acc p => if p.1 ∈ acc then acc else acc ++ [p.1]) []

/-- Rates carrying a given tag, in order. -/
def ratesOf (pairs : List (String × JQ)) (t : String) : List JQ :=
  (pairs.filter fun p => p.1 = t).map Prod.snd

/-- Mean fill rate of each tag group, groups in first-appearance order, read
off declaratively by tag filtering. -/
def specMeans (pairs : List (String × JQ)) : List JQ :=
  (firstKeys pairs).map fun t =>
    jsDiv ((ratesOf pairs t).foldr jsAdd (some 0)) (some (((ratesOf pairs t).length : ℚ)))

/-- Population variance of the group means per the spec: 0 with fewer than
two groups. -/
def specVariance (pairs : List (String × JQ)) : JQ :=
  if 1 < (specMeans pairs).length then
    jsDiv (((specMeans pairs).map fun m =>
        jsMul
          (jsSub m (jsDiv ((specMeans pairs).foldr jsAdd (some 0))
            (some ((((specMeans pairs).length : ℚ))))))
          (jsSub m (jsDiv ((specMeans pairs).foldr jsAdd (some 0))
            (some ((((specMeans pairs).length : ℚ))))))).foldr jsAdd (some 0))
      (some ((((specMeans pairs).length : ℚ))))
  else some 0

/-- Reference group-parity pipeline following the spec's words: group the
tagged fill rates by tag, take the mean fill rate of each group, take the
variance of these group means (0 with fewer than two groups), and return
`max(0, 100 - variance * 100)`. -/
def specGroupParity (pairs : List (String × JQ)) : JQ :=
  jsMax (some 0) (jsSub (some 100) (jsMul (specVariance pairs) (some 100)))

/-- Tagging of the full allocation list prescribed by the spec's group-parity
clause: every allocation (eligible and ineligible, in result order) is paired
with its request's group tag, defaulting to `"UNSPECIFIED"`. -/
def specPairsOf (demands : List DemandInfo) (allocations : List Allocation) :
    List (String × JQ) :=
  List.zip ((validDemands demands ++ invalidDemands demands).map fun d =>
      d.timezone.getD ("UNSPECIFIED"))
    (allocations.map fun a => a.fill_rate)

instance {ε α : Type} [DecidableEq ε] [DecidableEq α] : DecidableEq (Except ε α) := fun x y =>
  match x, y with
  | Except.error a, Except.error b =>
    if h : a = b then isTrue (by rw [h]) else isFalse (by simp [h])
  | Except.error _, Except.ok _ => isFalse (by simp)
  | Except.ok _, Except.error _ => isFalse (by simp)
  | Except.ok a, Except.ok b =>
    if h : a = b then isTrue (by rw [h]) else isFalse (by simp [h])

/-- Numeric content of an allocation result (allocations, total allocated,
total requested, efficiency, fairness metrics) as a function of the demands
and the capacity alone: neither the audit sink nor the clock appears. -/
def resultCore (demands : List DemandInfo) (capacity : JQ) :
    List Allocation × JQ × JQ × JQ × FairnessMetrics :=
  if (validDemands demands).length = 0 then
    (demands.map fun d =>
       { agent_id := d.agent_id, allocated := some 0, requested := d.amount,
         fill_rate := some 0 },
     some 0,
     demands.foldl (fun s d => jsAdd s d.amount) (some 0),
     some 0,
     { gini_coefficient := some 0, min_fill_rate := some 0, max_fill_rate := some 0,
       avg_fill_rate := some 0, timezone_parity := some 100 })
  else
    (allAllocations demands capacity,
     sumAllocated (allAllocations demands capacity),
     (allAllocations demands capacity).foldl (fun s a => jsAdd s a.requested) (some 0),
     if jsGtB capacity (some 0) then
       jsMul (jsDiv (sumAllocated (allAllocations demands capacity)) capacity) (some 100)
     else some 0,
     { gini_coefficient :=
         calculateGini ((allAllocations demands capacity).map fun a => a.fill_rate)
       min_fill_rate := jsMinList ((allAllocations demands capacity).map fun a => a.fill_rate)
       max_fill_rate := jsMaxList ((allAllocations demands capacity).map fun a => a.fill_rate)
       avg_fill_rate := jsMean ((allAllocations demands capacity).map fun a => a.fill_rate)
       timezone_parity := timezoneParity demands capacity })

/-- Second always-successful audit sink, distinguishable from `okSink`. -/
def okSinkB : AtomDecision → Except String TrailEntry := fun _ => Except.ok { id := ("trail-2") }

/-- Second clock value, distinguishable from `clock0`. -/
def clock1 : Clock := { nowMs := 7, isoDecision := ("u0"), isoResult := ("u1") }

/-- Concrete allocation with fill rate 1/2, used as a witness input. -/
def allocA : Allocation :=
  { agent_id := ("a"), allocated := some 1, requested := some 2, fill_rate := some (1 / 2) }

/-- Concrete allocation with fill rate 0, used as a witness input. -/
def allocB : Allocation :=
  { agent_id := ("b"), allocated := some 0, requested := some 4, fill_rate := some 0 }

/-- First minimum of a list under the fill-rate key: the element an
ascending stable sort puts first.  Used to characterize `selectNeedy`. -/
def pickMin : List (ℕ × Allocation) → Option (ℕ × Allocation)
  | [] => none
  | x :: xs =>
    match pickMin xs with
    | none => some x
    | some m => if jsLeB x.2.fill_rate m.2.fill_rate = true then some x else some m

/-- Claim C1, counterexample: with three eligible unit demands and capacity 2,
every floor share is 0 and the minimum-allocation bump raises each to 1, so
the sum of `allocated` over the returned allocations is 3, which exceeds the
capacity. -/
theorem c1_counterexample :
    ((allocateResources okSink clock0
        [mkD ("a") (some 1) none none, mkD ("b") (some 1) none none,
          mkD ("c") (some 1) none none] (some 2)).toOption.map fun r =>
      sumAllocated r.allocations) = some (some 3) ∧ ¬ ((3 : ℚ) ≤ 2) := by
  exact ⟨by decide, by decide⟩

/-- Claim C2, counterexample: a single eligible demand of 5 with capacity 100
receives the whole proportional share `floor(1 * 100) = 100`, so its
allocation has `allocated = 100 > 5 = requested`. -/
theorem c2_counterexample :
    ((allocateResources okSink clock0 [mkD ("big") (some 5) none none]
        (some 100)).toOption.map fun r =>
      r.allocations.map fun a => (a.allocated, a.requested)) = some [(some 100, some 5)]
    ∧ ¬ ((100 : ℚ) ≤ 5) := by
  exact ⟨by decide, by decide⟩

/-- Claim C3, code evaluation at the failing input: one eligible request of
amount 0 with capacity 10.  The total eligible demand is 0, the proportion is
the non-finite `0/0`, and the floor of `NaN * 10` is NaN; the `=== 0` bump
test is false on NaN, so the returned allocation keeps `allocated = NaN`
(here `none`) rather than the 0 the claim requires, and the total allocated
and efficiency are NaN as well.  The fill rate is 1 as claimed. -/
theorem c3_code_evaluation :
    ((allocateResources okSink clock0 [mkD ("z") (some 0) none (some (some 85))]
        (some 10)).toOption.map fun r =>
      (r.allocations.map fun a => (a.allocated, a.fill_rate), r.total_allocated,
        r.efficiency)) = some ([(none, some 1)], none, none)
    ∧ (none : JQ) ≠ some 0 := by
  exact ⟨by decide, by decide⟩

/-- Claim C5, code evaluation at the failing input: a negative capacity (-5)
with one eligible demand of 10 is not rejected; the engine runs the normal
allocation computation and returns a successful result whose allocation is
the negative number `floor(1 * (-5)) = -5`. -/
theorem c5_no_validation :
    ((allocateResources okSink clock0 [mkD ("a1") (some 10) none none]
        (some (-5))).toOption.map fun r =>
      r.allocations.map fun a => (a.allocated, a.requested)) = some [(some (-5), some 10)]
    ∧ ((-5 : ℚ) < 0) := by
  exact ⟨by decide, by decide⟩

/-- Claim C6, counterexample: when the audit collaborator fails, the failure
propagates out of `allocateResources` as an error (the call is unguarded),
contradicting the claim that a sink failure never propagates. -/
theorem c6_counterexample :
    allocateResources (failSink ("audit sink failure")) clock0
      [mkD ("a") (some 10) none none] (some 10) = Except.error ("audit sink failure") := by
  rfl

/-- Claim C8, counterexample: one eligible demand (tag `"A"`, fill rate 1)
and one ineligible demand (tag `"B"`, fill rate 0) with capacity 1.  The code
groups only the eligible demands, sees the single group `"A"`, and returns
parity 100; the spec's reference definition groups all allocations, sees the
two groups with means 1 and 0 (variance 1/4), and returns 75. -/
theorem c8_counterexample :
    ((allocateResources okSink clock0
        [mkD ("a") (some 1) (some ("A")) (some (some 85)),
          mkD ("b") (some 1) (some ("B")) (some (some 50))] (some 1)).toOption.map fun r =>
      (r.fairness_metrics.timezone_parity,
        specGroupParity (specPairsOf
          [mkD ("a") (some 1) (some ("A")) (some (some 85)),
            mkD ("b") (some 1) (some ("B")) (some (some 50))] r.allocations)))
      = some (some 100, some 75)
    ∧ (some (100 : ℚ) : JQ) ≠ some 75 := by
  exact ⟨by decide, by decide⟩

/-- Redistribution only ever replaces single entries, so it preserves the
length of the allocation list. -/
theorem redistribute_length : ∀ (f : ℕ) (allocs : List Allocation) (rem : JQ),
    ((redistribute allocs rem f).1).length = allocs.length := by
  intro f
  induction f with
  | zero => intro allocs rem; rfl
  | succ f ih =>
    intro allocs rem
    simp only [redistribute]
    split
    · split
      · rfl
      · rw [ih]; simp
    · rfl

/-- Adequacy of the fuel bound: with `⌈remaining⌉` units of fuel the fueled
loop runs to a state where the source's `while` condition is already false or
no needy allocation remains, so the fuel never truncates the loop.  (On a NaN
remainder the condition is false from the start and `loopFuel` is 0.) -/
theorem redistribute_complete : ∀ (f : ℕ) (allocs : List Allocation) (r : ℚ),
    ((⌈r⌉ : ℤ)).toNat ≤ f →
    jsGtB (redistribute allocs (some r) f).2 (some 0) = false
    ∨ selectNeedy (redistribute allocs (some r) f).1 = none := by
  intro f
  induction f with
  | zero =>
    intro allocs r hf
    left
    have hr : r ≤ 0 := by
      by_contra hpos
      push_neg at hpos
      have h1 : (1 : ℤ) ≤ ⌈r⌉ := Int.one_le_ceil_iff.mpr hpos
      omega
    show jsGtB (some r) (some 0) = false
    simp [jsGtB, not_lt.mpr hr]
  | succ f ih =>
    intro allocs r hf
    by_cases hgt : jsGtB (some r) (some 0) = true
    · have hr : 0 < r := by
        rw [jsGtB, decide_eq_true_eq] at hgt
        exact hgt
      cases hs : selectNeedy allocs with
      | none =>
        right
        rw [redistribute, if_pos hgt]
        simp only [hs]
      | some ja =>
        obtain ⟨j, a⟩ := ja
        rw [redistribute, if_pos hgt]
        simp only [hs]
        have hsub : jsSub (some r) (some 1) = some (r - 1) := rfl
        rw [hsub]
        apply ih
        have hceil : ⌈r - 1⌉ = ⌈r⌉ - 1 := Int.ceil_sub_one r
        have h1 : (1 : ℤ) ≤ ⌈r⌉ := Int.one_le_ceil_iff.mpr hr
        omega
    · left
      rw [redistribute, if_neg hgt]
      exact eq_false_of_ne_true hgt

/-- Claim C4: every ineligible request (effective quality score below 64)
receives a zero allocation with zero fill rate: the tail of the returned
allocation list beyond the eligible prefix is exactly the zero allocation of
each ineligible demand (on the all-ineligible path, of every demand), so the
redistribution loop never grants an ineligible request a unit; and a demand
is eligible precisely when its effective score passes `jsGeB` against the
threshold 64. -/
theorem c4_ineligible_zero (sink : AtomDecision → Except String TrailEntry) (clock : Clock)
    (demands : List DemandInfo) (capacity : JQ) (r : AllocationResult)
    (h : allocateResources sink clock demands capacity = Except.ok r) :
    r.allocations.drop (validDemands demands).length =
      (if (validDemands demands).length = 0 then demands else invalidDemands demands).map
        zeroAllocationOf
    ∧ ∀ d ∈ demands,
        (d ∈ validDemands demands ↔ jsGeB (effectiveScore d) MIN_COHERENCE_THRESHOLD = true) := by
  constructor
  · by_cases hv : (validDemands demands).length = 0
    · rw [allocateResources, if_pos hv] at h
      simp only [createEmptyAllocation] at h
      cases hs : sink (emptyDecision clock) with
      | error e => rw [hs] at h; exact absurd h (by simp)
      | ok t =>
        rw [hs] at h
        simp only [Except.ok.injEq] at h
        subst h
        simp [hv, zeroAllocationOf]
    · rw [allocateResources, if_neg hv] at h
      simp only [allocDecision] at h
      cases hs : sink (allocDecision demands capacity clock) with
      | error e =>
        rw [allocDecision] at hs
        rw [hs] at h; exact absurd h (by simp)
      | ok t =>
        rw [allocDecision] at hs
        rw [hs] at h
        simp only [Except.ok.injEq] at h
        subst h
        rw [if_neg hv]
        have hlen : (validDemands demands).length =
            (finalValidAllocations demands capacity).length := by
          simp [finalValidAllocations, redistribute_length, validAllocations]
        simp only [allAllocations]
        rw [hlen, List.drop_left]
        rfl
  · intro d hd
    constructor
    · intro hmem
      exact (List.mem_filter.mp hmem).2
    · intro hsc
      exact List.mem_filter.mpr ⟨hd, hsc⟩

/-- Witness for claim C4 at a concrete input: a single ineligible demand
(score 50 below the threshold) with capacity 10 takes the all-ineligible
path and its allocation is the zero allocation. -/
theorem c4_witness :
    allocateResources okSink clock0 [mkD ("low") (some 7) none (some (some 50))] (some 10)
      = Except.ok
        { allocations :=
            [{ agent_id := ("low"), allocated := some 0, requested := some 7,
               fill_rate := some 0 }]
          total_allocated := some 0
          total_requested := some 7
          efficiency := some 0
          fairness_metrics :=
            { gini_coefficient := some 0, min_fill_rate := some 0,
              max_fill_rate := some 0, avg_fill_rate := some 0, timezone_parity := some 100 }
          timestamp := ("t1")
          provenance := { atom_tag := ("ATOM-ALLOC-0"), trail_id := ("trail-1") } }
    ∧ ([{ agent_id := ("low"), allocated := some 0, requested := some 7, fill_rate := some 0 }]
          : List Allocation).drop
            (validDemands [mkD ("low") (some 7) none (some (some 50))]).length
        = (if (validDemands [mkD ("low") (some 7) none (some (some 50))]).length = 0
            then [mkD ("low") (some 7) none (some (some 50))]
            else invalidDemands [mkD ("low") (some 7) none (some (some 50))]).map
            zeroAllocationOf := by
  have hrun : allocateResources okSink clock0 [mkD ("low") (some 7) none (some (some 50))]
      (some 10)
      = Except.ok
        { allocations :=
            [{ agent_id := ("low"), allocated := some 0, requested := some 7,
               fill_rate := some 0 }]
          total_allocated := some 0
          total_requested := some 7
          efficiency := some 0
          fairness_metrics :=
            { gini_coefficient := some 0, min_fill_rate := some 0,
              max_fill_rate := some 0, avg_fill_rate := some 0, timezone_parity := some 100 }
          timestamp := ("t1")
          provenance := { atom_tag := ("ATOM-ALLOC-0"), trail_id := ("trail-1") } } := by
    decide
  exact ⟨hrun, (c4_ineligible_zero okSink clock0 _ _ _ hrun).1⟩

/-- Whenever `allocateResources` returns successfully, its numeric fields are
exactly `resultCore demands capacity` and its timestamp is the clock's result
timestamp: the audit sink can only contribute the trail id (or an error). -/
theorem allocateResources_ok_fields (sink : AtomDecision → Except String TrailEntry)
    (clock : Clock) (demands : List DemandInfo) (capacity : JQ) (r : AllocationResult)
    (h : allocateResources sink clock demands capacity = Except.ok r) :
    (r.allocations, r.total_allocated, r.total_requested, r.efficiency, r.fairness_metrics)
      = resultCore demands capacity ∧ r.timestamp = clock.isoResult := by
  by_cases hv : (validDemands demands).length = 0
  · rw [allocateResources, if_pos hv] at h
    simp only [createEmptyAllocation] at h
    cases hs : sink (emptyDecision clock) with
    | error e => rw [hs] at h; exact absurd h (by simp)
    | ok t =>
      rw [hs] at h
      simp only [Except.ok.injEq] at h
      subst h
      rw [resultCore, if_pos hv]
      exact ⟨rfl, rfl⟩
  · rw [allocateResources, if_neg hv] at h
    simp only [allocDecision] at h
    cases hs : sink (allocDecision demands capacity clock) with
    | error e =>
      rw [allocDecision] at hs
      rw [hs] at h; exact absurd h (by simp)
    | ok t =>
      rw [allocDecision] at hs
      rw [hs] at h
      simp only [Except.ok.injEq] at h
      subst h
      rw [resultCore, if_neg hv]
      exact ⟨rfl, rfl⟩

/-- Claim C10: the numeric result of `allocateResources` is deterministic.
Two successful invocations on the same demand list and capacity, with any
audit sinks and any wall-clock values, return identical allocation lists
(same agent ids, allocated, requested, fill rates, in the same order) and
identical totals, efficiency, and fairness metrics; only timestamp and
provenance can differ. -/
theorem c10_determinism (demands : List DemandInfo) (capacity : JQ)
    (s1 s2 : AtomDecision → Except String TrailEntry) (k1 k2 : Clock)
    (r1 r2 : AllocationResult)
    (h1 : allocateResources s1 k1 demands capacity = Except.ok r1)
    (h2 : allocateResources s2 k2 demands capacity = Except.ok r2) :
    r1.allocations = r2.allocations ∧ r1.total_allocated = r2.total_allocated ∧
    r1.total_requested = r2.total_requested ∧ r1.efficiency = r2.efficiency ∧
    r1.fairness_metrics = r2.fairness_metrics := by
  have e1 := (allocateResources_ok_fields s1 k1 demands capacity r1 h1).1
  have e2 := (allocateResources_ok_fields s2 k2 demands capacity r2 h2).1
  have e := e1.trans e2.symm
  simp only [Prod.mk.injEq] at e
  exact ⟨e.1, e.2.1, e.2.2.1, e.2.2.2.1, e.2.2.2.2⟩

/-- Witness for claim C10 at a concrete input: the same single-demand input
run with two different sinks and two different clocks produces the same
numeric fields (both runs land on the all-ineligible path of this input). -/
theorem c10_witness :
    (allocateResources okSink clock0 [mkD ("low") (some 7) none (some (some 50))] (some 10)
       = Except.ok
        { allocations :=
            [{ agent_id := ("low"), allocated := some 0, requested := some 7,
               fill_rate := some 0 }]
          total_allocated := some 0
          total_requested := some 7
          efficiency := some 0
          fairness_metrics :=
            { gini_coefficient := some 0, min_fill_rate := some 0,
              max_fill_rate := some 0, avg_fill_rate := some 0, timezone_parity := some 100 }
          timestamp := ("t1")
          provenance := { atom_tag := ("ATOM-ALLOC-0"), trail_id := ("trail-1") } })
    ∧ (allocateResources okSinkB clock1 [mkD ("low") (some 7) none (some (some 50))] (some 10)
       = Except.ok
        { allocations :=
            [{ agent_id := ("low"), allocated := some 0, requested := some 7,
               fill_rate := some 0 }]
          total_allocated := some 0
          total_requested := some 7
          efficiency := some 0
          fairness_metrics :=
            { gini_coefficient := some 0, min_fill_rate := some 0,
              max_fill_rate := some 0, avg_fill_rate := some 0, timezone_parity := some 100 }
          timestamp := ("u1")
          provenance := { atom_tag := ("ATOM-ALLOC-7"), trail_id := ("trail-2") } })
    ∧ [{ agent_id := ("low"), allocated := some 0, requested := some 7, fill_rate := some 0 }]
        = ([{ agent_id := ("low"), allocated := some 0, requested := some 7,
              fill_rate := some 0 }] : List Allocation) := by
  have h1 : allocateResources okSink clock0 [mkD ("low") (some 7) none (some (some 50))]
      (some 10)
      = Except.ok
        { allocations :=
            [{ agent_id := ("low"), allocated := some 0, requested := some 7,
               fill_rate := some 0 }]
          total_allocated := some 0
          total_requested := some 7
          efficiency := some 0
          fairness_metrics :=
            { gini_coefficient := some 0, min_fill_rate := some 0,
              max_fill_rate := some 0, avg_fill_rate := some 0, timezone_parity := some 100 }
          timestamp := ("t1")
          provenance := { atom_tag := ("ATOM-ALLOC-0"), trail_id := ("trail-1") } } := by
    decide
  have h2 : allocateResources okSinkB clock1 [mkD ("low") (some 7) none (some (some 50))]
      (some 10)
      = Except.ok
        { allocations :=
            [{ agent_id := ("low"), allocated := some 0, requested := some 7,
               fill_rate := some 0 }]
          total_allocated := some 0
          total_requested := some 7
          efficiency := some 0
          fairness_metrics :=
            { gini_coefficient := some 0, min_fill_rate := some 0,
              max_fill_rate := some 0, avg_fill_rate := some 0, timezone_parity := some 100 }
          timestamp := ("u1")
          provenance := { atom_tag := ("ATOM-ALLOC-7"), trail_id := ("trail-2") } } := by
    decide
  exact ⟨h1, h2, (c10_determinism _ _ okSink okSinkB clock0 clock1 _ _ h1 h2).1⟩

/-- Claim C6, amended part: when the audit sink succeeds, the numeric
allocation result is independent of which sink was used — two successful runs
with the same clock agree on allocations, totals, efficiency, fairness
metrics, and even the timestamp; only the provenance trail id can reflect the
sink.  (The original claim's no-propagation part is refuted by
`c6_counterexample`.) -/
theorem c6_amended (demands : List DemandInfo) (capacity : JQ) (clock : Clock)
    (s1 s2 : AtomDecision → Except String TrailEntry) (r1 r2 : AllocationResult)
    (h1 : allocateResources s1 clock demands capacity = Except.ok r1)
    (h2 : allocateResources s2 clock demands capacity = Except.ok r2) :
    r1.allocations = r2.allocations ∧ r1.total_allocated = r2.total_allocated ∧
    r1.total_requested = r2.total_requested ∧ r1.efficiency = r2.efficiency ∧
    r1.fairness_metrics = r2.fairness_metrics ∧ r1.timestamp = r2.timestamp := by
  have e1 := allocateResources_ok_fields s1 clock demands capacity r1 h1
  have e2 := allocateResources_ok_fields s2 clock demands capacity r2 h2
  have e := e1.1.trans e2.1.symm
  simp only [Prod.mk.injEq] at e
  exact ⟨e.1, e.2.1, e.2.2.1, e.2.2.2.1, e.2.2.2.2, e1.2.trans e2.2.symm⟩

/-- Witness for the amended claim C6 at a concrete input: the two successful
sinks `okSink` and `okSinkB` give the same numeric fields and timestamp. -/
theorem c6_amended_witness :
    (allocateResources okSink clock0 [mkD ("low") (some 7) none (some (some 50))] (some 10)
       = Except.ok
        { allocations :=
            [{ agent_id := ("low"), allocated := some 0, requested := some 7,
               fill_rate := some 0 }]
          total_allocated := some 0
          total_requested := some 7
          efficiency := some 0
          fairness_metrics :=
            { gini_coefficient := some 0, min_fill_rate := some 0,
              max_fill_rate := some 0, avg_fill_rate := some 0, timezone_parity := some 100 }
          timestamp := ("t1")
          provenance := { atom_tag := ("ATOM-ALLOC-0"), trail_id := ("trail-1") } })
    ∧ (allocateResources okSinkB clock0 [mkD ("low") (some 7) none (some (some 50))] (some 10)
       = Except.ok
        { allocations :=
            [{ agent_id := ("low"), allocated := some 0, requested := some 7,
               fill_rate := some 0 }]
          total_allocated := some 0
          total_requested := some 7
          efficiency := some 0
          fairness_metrics :=
            { gini_coefficient := some 0, min_fill_rate := some 0,
              max_fill_rate := some 0, avg_fill_rate := some 0, timezone_parity := some 100 }
          timestamp := ("t1")
          provenance := { atom_tag := ("ATOM-ALLOC-0"), trail_id := ("trail-2") } })
    ∧ ("t1") = ("t1") := by
  have h1 : allocateResources okSink clock0 [mkD ("low") (some 7) none (some (some 50))]
      (some 10)
      = Except.ok
        { allocations :=
            [{ agent_id := ("low"), allocated := some 0, requested := some 7,
               fill_rate := some 0 }]
          total_allocated := some 0
          total_requested := some 7
          efficiency := some 0
          fairness_metrics :=
            { gini_coefficient := some 0, min_fill_rate := some 0,
              max_fill_rate := some 0, avg_fill_rate := some 0, timezone_parity := some 100 }
          timestamp := ("t1")
          provenance := { atom_tag := ("ATOM-ALLOC-0"), trail_id := ("trail-1") } } := by
    decide
  have h2 : allocateResources okSinkB clock0 [mkD ("low") (some 7) none (some (some 50))]
      (some 10)
      = Except.ok
        { allocations :=
            [{ agent_id := ("low"), allocated := some 0, requested := some 7,
               fill_rate := some 0 }]
          total_allocated := some 0
          total_requested := some 7
          efficiency := some 0
          fairness_metrics :=
            { gini_coefficient := some 0, min_fill_rate := some 0,
              max_fill_rate := some 0, avg_fill_rate := some 0, timezone_parity := some 100 }
          timestamp := ("t1")
          provenance := { atom_tag := ("ATOM-ALLOC-0"), trail_id := ("trail-2") } } := by
    decide
  exact ⟨h1, h2, (c6_amended _ _ clock0 okSink okSinkB _ _ h1 h2).2.2.2.2.2⟩

theorem orderedInsert_map_some (a : ℚ) : ∀ l : List ℚ,
    List.orderedInsert jqLe (some a) (l.map some)
      = (List.orderedInsert (fun x y => x ≤ y) a l).map some := by
  intro l
  induction l with
  | nil => rfl
  | cons b t ih =>
    by_cases h : a ≤ b
    · simp [List.orderedInsert, jqLe, jsLeB, h]
    · simp [List.orderedInsert, jqLe, jsLeB, h, ih]

theorem insertionSort_map_some : ∀ l : List ℚ,
    List.insertionSort jqLe (l.map some)
      = (List.insertionSort (fun x y => x ≤ y) l).map some := by
  intro l
  induction l with
  | nil => rfl
  | cons b t ih => simp [List.insertionSort, ih, orderedInsert_map_some]

theorem foldl_jsAdd_map_some : ∀ (l : List ℚ) (q : ℚ),
    (l.map some).foldl jsAdd (some q) = some (l.foldl (fun a b => a + b) q) := by
  intro l
  induction l with
  | nil => intro q; rfl
  | cons b t ih => intro q; simpa [jsAdd] using ih (q + b)

theorem foldl_add_eq_sum : ∀ (l : List ℚ) (q : ℚ),
    l.foldl (fun a b => a + b) q = q + l.sum := by
  intro l
  induction l with
  | nil => intro q; simp
  | cons b t ih => intro q; rw [List.foldl_cons, ih, List.sum_cons]; ring

theorem giniSum_map_some : ∀ (l : List ℚ) (n i : ℤ),
    giniSum (l.map some) n i = some (giniSumQ l n i) := by
  intro l
  induction l with
  | nil => intro n i; rfl
  | cons b t ih => intro n i; simp [giniSum, giniSumQ, jsAdd, jsMul, ih]

/-- Bridge: on a list of finite values, `calculateGini` is finite and given
by the rational-level mirror. -/
theorem calculateGini_map_some (l : List ℚ) :
    calculateGini (l.map some) = some (calculateGiniQ l) := by
  by_cases hne : l.length = 0
  · have h0 : l = [] := List.length_eq_zero.mp hne
    subst h0; rfl
  · have hn : (((l.length : ℤ)) : ℚ) ≠ 0 := by
      push_cast
      exact Nat.cast_ne_zero.mpr hne
    simp only [calculateGini, calculateGiniQ, List.length_map]
    rw [if_neg hne, if_neg hne]
    rw [insertionSort_map_some, foldl_jsAdd_map_some, giniSum_map_some, foldl_add_eq_sum,
      zero_add]
    simp only [jsDiv, jsMul, if_neg hn]
    have hswap : ∀ D : ℚ,
        (if jsTruthy (some D) = true then some D else some (1 : ℚ))
          = some (if D = 0 then 1 else D) := by
      intro D
      by_cases hD : D = 0
      · simp [jsTruthy, hD]
      · simp [jsTruthy, hD]
    have hne2 : ∀ D : ℚ, (if D = 0 then (1 : ℚ) else D) ≠ 0 := by
      intro D
      by_cases hD : D = 0
      · simp [hD]
      · simp [hD]
    rw [hswap]
    simp only [jsDiv]
    rw [if_neg (hne2 _)]

theorem giniSumQ_shift_i : ∀ (l : List ℚ) (n i : ℤ),
    giniSumQ l n (i + 1) = giniSumQ l n i + 2 * l.sum := by
  intro l
  induction l with
  | nil => intro n i; simp [giniSumQ]
  | cons b t ih =>
    intro n i
    rw [giniSumQ, giniSumQ, ih, List.sum_cons]
    push_cast
    ring

theorem giniSumQ_shift_n : ∀ (l : List ℚ) (n i : ℤ),
    giniSumQ l (n + 1) i = giniSumQ l n i - l.sum := by
  intro l
  induction l with
  | nil => intro n i; simp [giniSumQ]
  | cons b t ih =>
    intro n i
    rw [giniSumQ, giniSumQ, ih, List.sum_cons]
    push_cast
    ring

theorem sum_ge_length_mul : ∀ (l : List ℚ) (c : ℚ),
    (∀ x ∈ l, c ≤ x) → c * ((l.length : ℚ)) ≤ l.sum := by
  intro l
  induction l with
  | nil => intro c _; simp
  | cons b t ih =>
    intro c h
    have hb := h b (List.mem_cons_self b t)
    have ht := ih c fun x hx => h x (List.mem_cons_of_mem b hx)
    rw [List.sum_cons, List.length_cons]
    push_cast
    linarith

/-- Coefficient-sum bounds for a sorted non-negative list: the Gini numerator
lies between 0 and `(n - 1) * sum`. -/
theorem giniSumQ_bounds : ∀ l : List ℚ, l.Sorted (fun a b : ℚ => a ≤ b) →
    (∀ x ∈ l, 0 ≤ x) →
    0 ≤ giniSumQ l ((l.length : ℤ)) 0
    ∧ giniSumQ l ((l.length : ℤ)) 0 ≤ (((l.length : ℚ)) - 1) * l.sum := by
  intro l
  induction l with
  | nil => intro _ _; simp [giniSumQ]
  | cons b t ih =>
    intro hsorted hnn
    obtain ⟨hble, hst⟩ := List.sorted_cons.mp hsorted
    have hb0 : 0 ≤ b := hnn b (List.mem_cons_self b t)
    have htnn : ∀ x ∈ t, 0 ≤ x := fun x hx => hnn x (List.mem_cons_of_mem b hx)
    obtain ⟨ihl, ihu⟩ := ih hst htnn
    have h3 : (((b :: t).length : ℤ)) = ((t.length : ℤ)) + 1 := by
      simp [List.length_cons]
    have h2 := giniSumQ_shift_i t (((t.length : ℤ)) + 1) 0
    simp only [zero_add] at h2
    have h1 := giniSumQ_shift_n t ((t.length : ℤ)) 0
    have hshift : giniSumQ t (((b :: t).length : ℤ)) 1
        = giniSumQ t ((t.length : ℤ)) 0 + t.sum := by
      rw [h3, h2, h1]
      ring
    have hsum_lower : b * ((t.length : ℚ)) ≤ t.sum := sum_ge_length_mul t b hble
    have hmb : 0 ≤ ((t.length : ℚ)) * b := by positivity
    rw [giniSumQ]
    simp only [zero_add]
    rw [hshift]
    rw [List.length_cons, List.sum_cons]
    push_cast
    constructor
    · nlinarith
    · nlinarith

/-- Coefficient sum of a constant list, in closed form. -/
theorem giniSumQ_const : ∀ (l : List ℚ) (n i : ℤ) (c : ℚ), (∀ x ∈ l, x = c) →
    giniSumQ l n i
      = c * (((l.length : ℚ)) * (((2 * i + 1 - n : ℤ) : ℚ))
          + ((l.length : ℚ)) * (((l.length : ℚ)) - 1)) := by
  intro l
  induction l with
  | nil => intro n i c _; simp [giniSumQ]
  | cons b t ih =>
    intro n i c h
    have hb : b = c := h b (List.mem_cons_self b t)
    have ht : ∀ x ∈ t, x = c := fun x hx => h x (List.mem_cons_of_mem b hx)
    rw [giniSumQ, ih n (i + 1) c ht, hb, List.length_cons]
    push_cast
    ring

/-- Value-level facts about the rational Gini mirror: bounds, the all-equal
case, and the zero-sum case. -/
theorem calculateGiniQ_spec (l : List ℚ) (hne : l ≠ []) (hnn : ∀ x ∈ l, 0 ≤ x) :
    (0 ≤ calculateGiniQ l ∧ calculateGiniQ l ≤ 1)
    ∧ ((∀ x ∈ l, ∀ y ∈ l, x = y) → calculateGiniQ l = 0)
    ∧ (l.sum = 0 → calculateGiniQ l = 0) := by
  have hlen : l.length ≠ 0 := fun h => hne (List.length_eq_zero.mp h)
  have hnQ : ((l.length : ℚ)) ≠ 0 := Nat.cast_ne_zero.mpr hlen
  have hnQpos : (0 : ℚ) < ((l.length : ℚ)) := by
    have := Nat.pos_of_ne_zero hlen
    exact_mod_cast this
  have hperm := List.perm_insertionSort (fun a b : ℚ => a ≤ b) l
  have hsum : (List.insertionSort (fun a b : ℚ => a ≤ b) l).sum = l.sum := hperm.sum_eq
  have hlen2 : (List.insertionSort (fun a b : ℚ => a ≤ b) l).length = l.length :=
    hperm.length_eq
  have hsorted : (List.insertionSort (fun a b : ℚ => a ≤ b) l).Sorted (fun a b : ℚ => a ≤ b) :=
    List.sorted_insertionSort (fun a b : ℚ => a ≤ b) l
  have hmem : ∀ x ∈ List.insertionSort (fun a b : ℚ => a ≤ b) l, 0 ≤ x :=
    fun x hx => hnn x (hperm.mem_iff.mp hx)
  have hbounds := giniSumQ_bounds (List.insertionSort (fun a b : ℚ => a ≤ b) l) hsorted hmem
  rw [hlen2, hsum] at hbounds
  have hsum_nonneg : 0 ≤ l.sum := by
    rw [← hsum]
    exact List.sum_nonneg hmem
  have hgini : calculateGiniQ l
      = giniSumQ (List.insertionSort (fun a b : ℚ => a ≤ b) l) ((l.length : ℤ)) 0
        / (if ((l.length : ℚ)) * ((l.length : ℚ)) * (l.sum / ((l.length : ℚ))) = 0 then 1
           else ((l.length : ℚ)) * ((l.length : ℚ)) * (l.sum / ((l.length : ℚ)))) := by
    simp only [calculateGiniQ]
    rw [if_neg hlen, hsum]
    push_cast
    rfl
  have hdenom : ((l.length : ℚ)) * ((l.length : ℚ)) * (l.sum / ((l.length : ℚ)))
      = ((l.length : ℚ)) * l.sum := by
    field_simp
    ring
  by_cases hz : l.sum = 0
  · have hS0 : giniSumQ (List.insertionSort (fun a b : ℚ => a ≤ b) l) ((l.length : ℤ)) 0 = 0 := by
      have hub := hbounds.2
      rw [hz, mul_zero] at hub
      linarith [hbounds.1]
    have hval : calculateGiniQ l = 0 := by
      rw [hgini, hS0, zero_div]
    refine ⟨⟨by rw [hval], by rw [hval]; norm_num⟩, fun _ => hval, fun _ => hval⟩
  · have hsum_pos : 0 < l.sum := lt_of_le_of_ne hsum_nonneg (Ne.symm hz)
    have hdpos : 0 < ((l.length : ℚ)) * l.sum := by positivity
    have hdne : ((l.length : ℚ)) * ((l.length : ℚ)) * (l.sum / ((l.length : ℚ))) ≠ 0 := by
      rw [hdenom]; exact ne_of_gt hdpos
    have hval : calculateGiniQ l
        = giniSumQ (List.insertionSort (fun a b : ℚ => a ≤ b) l) ((l.length : ℤ)) 0
          / (((l.length : ℚ)) * l.sum) := by
      rw [hgini, if_neg hdne, hdenom]
    refine ⟨⟨?_, ?_⟩, ?_, fun h => absurd h hz⟩
    · rw [hval]
      exact div_nonneg hbounds.1 (le_of_lt hdpos)
    · rw [hval]
      apply div_le_one_of_le₀
      · calc giniSumQ (List.insertionSort (fun a b : ℚ => a ≤ b) l) ((l.length : ℤ)) 0
            ≤ (((l.length : ℚ)) - 1) * l.sum := hbounds.2
          _ ≤ ((l.length : ℚ)) * l.sum := by nlinarith
      · exact le_of_lt hdpos
    · intro heq
      have hc : ∀ x ∈ l, x = l.sum / ((l.length : ℚ)) → True := fun _ _ _ => trivial
      obtain ⟨a, ha⟩ : ∃ a, a ∈ l := by
        cases l with
        | nil => exact absurd rfl hne
        | cons x xs => exact ⟨x, List.mem_cons_self x xs⟩
      have hall : ∀ x ∈ List.insertionSort (fun a b : ℚ => a ≤ b) l, x = a :=
        fun x hx => heq x (hperm.mem_iff.mp hx) a ha
      have hS := giniSumQ_const (List.insertionSort (fun a b : ℚ => a ≤ b) l)
        ((l.length : ℤ)) 0 a hall
      rw [hlen2] at hS
      have hfactor : ((l.length : ℚ)) * (((2 * 0 + 1 - (l.length : ℤ) : ℤ) : ℚ))
          + ((l.length : ℚ)) * (((l.length : ℚ)) - 1) = 0 := by
        push_cast
        ring
      rw [hfactor, mul_zero] at hS
      rw [hgini, hS, zero_div]

/-- Claim C7: on every non-empty vector of non-negative finite fill rates,
`calculateGini` returns a finite value in `[0, 1]`; it returns exactly 0 when
all fill rates are equal; and when the mean of the fill rates is 0 it returns
0 rather than a non-finite value. -/
theorem c7_gini_bounds (l : List ℚ) (hne : l ≠ []) (hnn : ∀ x ∈ l, 0 ≤ x) :
    (∃ g : ℚ, calculateGini (l.map some) = some g ∧ 0 ≤ g ∧ g ≤ 1)
    ∧ ((∀ x ∈ l, ∀ y ∈ l, x = y) → calculateGini (l.map some) = some 0)
    ∧ (l.sum / ((l.length : ℚ)) = 0 → calculateGini (l.map some) = some 0) := by
  have hb := calculateGiniQ_spec l hne hnn
  have hbr := calculateGini_map_some l
  have hlen : l.length ≠ 0 := fun h => hne (List.length_eq_zero.mp h)
  have hnQ : ((l.length : ℚ)) ≠ 0 := Nat.cast_ne_zero.mpr hlen
  refine ⟨⟨calculateGiniQ l, hbr, hb.1.1, hb.1.2⟩, ?_, ?_⟩
  · intro h
    rw [hbr, hb.2.1 h]
  · intro h
    have hz : l.sum = 0 := by
      rcases div_eq_zero_iff.mp h with h0 | h0
      · exact h0
      · exact absurd h0 hnQ
    rw [hbr, hb.2.2 hz]

/-- Witness for claim C7 at the concrete fill-rate vector `[0, 1]`. -/
theorem c7_witness :
    (([(0 : ℚ), 1] : List ℚ) ≠ [] ∧ ∀ x ∈ ([(0 : ℚ), 1] : List ℚ), 0 ≤ x)
    ∧ ((∃ g : ℚ, calculateGini (([(0 : ℚ), 1] : List ℚ).map some) = some g ∧ 0 ≤ g ∧ g ≤ 1)
       ∧ ((∀ x ∈ ([(0 : ℚ), 1] : List ℚ), ∀ y ∈ ([(0 : ℚ), 1] : List ℚ), x = y) →
            calculateGini (([(0 : ℚ), 1] : List ℚ).map some) = some 0)
       ∧ (([(0 : ℚ), 1] : List ℚ).sum / (((([(0 : ℚ), 1] : List ℚ).length : ℚ))) = 0 →
            calculateGini (([(0 : ℚ), 1] : List ℚ).map some) = some 0)) :=
  ⟨⟨by decide, by decide⟩, c7_gini_bounds [0, 1] (by decide) (by decide)⟩

theorem jsLeB_some_iff {a b : ℚ} : jsLeB (some a) (some b) = true ↔ a ≤ b := by
  simp [jsLeB]

theorem jsLtB_some_iff {a b : ℚ} : jsLtB (some a) (some b) = true ↔ a < b := by
  simp [jsLtB]

theorem pickMin_cons_none (x : ℕ × Allocation) (xs : List (ℕ × Allocation))
    (h : pickMin xs = none) : pickMin (x :: xs) = some x := by
  simp [pickMin, h]

theorem pickMin_cons_some (x : ℕ × Allocation) (xs : List (ℕ × Allocation))
    (m0 : ℕ × Allocation) (h : pickMin xs = some m0) :
    pickMin (x :: xs)
      = if jsLeB x.2.fill_rate m0.2.fill_rate = true then some x else some m0 := by
  simp [pickMin, h]

theorem pickMin_eq_none : ∀ l : List (ℕ × Allocation), pickMin l = none ↔ l = [] := by
  intro l
  cases l with
  | nil => simp [pickMin]
  | cons x xs =>
    cases hx : pickMin xs with
    | none => rw [pickMin_cons_none x xs hx]; simp
    | some m0 =>
      rw [pickMin_cons_some x xs m0 hx]
      constructor
      · intro h
        by_cases hc : jsLeB x.2.fill_rate m0.2.fill_rate = true
        · rw [if_pos hc] at h; exact absurd h (by simp)
        · rw [if_neg hc] at h; exact absurd h (by simp)
      · intro h; exact absurd h (by simp)

theorem pickMin_mem : ∀ (l : List (ℕ × Allocation)) (m : ℕ × Allocation),
    pickMin l = some m → m ∈ l := by
  intro l
  induction l with
  | nil => intro m h; exact absurd h (by simp [pickMin])
  | cons x xs ih =>
    intro m h
    cases hx : pickMin xs with
    | none =>
      rw [pickMin_cons_none x xs hx] at h
      injection h with h; exact h ▸ List.mem_cons_self x xs
    | some m0 =>
      rw [pickMin_cons_some x xs m0 hx] at h
      by_cases hc : jsLeB x.2.fill_rate m0.2.fill_rate = true
      · rw [if_pos hc] at h; injection h with h; exact h ▸ List.mem_cons_self x xs
      · rw [if_neg hc] at h; injection h with h
        exact h ▸ List.mem_cons_of_mem x (ih m0 hx)

/-- Head of the ordered insertion: the new element wins exactly when it
compares below-or-equal to the old head. -/
theorem head_orderedInsert (x h : ℕ × Allocation) (t : List (ℕ × Allocation)) :
    (List.orderedInsert fillLe x (h :: t)).head? = some (if fillLe x h then x else h) := by
  by_cases hc : fillLe x h
  · rw [List.orderedInsert, if_pos hc, if_pos hc]; rfl
  · rw [List.orderedInsert, if_neg hc, if_neg hc]; rfl

/-- Head of the stable ascending sort is the first minimum. -/
theorem head_insertionSort_pickMin : ∀ l : List (ℕ × Allocation),
    (List.insertionSort fillLe l).head? = pickMin l := by
  intro l
  induction l with
  | nil => rfl
  | cons x xs ih =>
    rw [List.insertionSort]
    cases hs : List.insertionSort fillLe xs with
    | nil =>
      have hxs : pickMin xs = none := by rw [← ih, hs]; rfl
      rw [pickMin_cons_none x xs hxs, List.orderedInsert]
      rfl
    | cons h t =>
      have hxs : pickMin xs = some h := by rw [← ih, hs]; rfl
      rw [pickMin_cons_some x xs h hxs, head_orderedInsert]
      by_cases hc : fillLe x h
      · rw [if_pos hc, if_pos (show jsLeB x.2.fill_rate h.2.fill_rate = true from hc)]
      · rw [if_neg hc, if_neg (show ¬jsLeB x.2.fill_rate h.2.fill_rate = true from hc)]

/-- The first minimum splits the list into a strictly-larger prefix and a
not-smaller suffix (all comparisons over finite fill rates). -/
theorem pickMin_spec : ∀ (l : List (ℕ × Allocation)),
    (∀ y ∈ l, (y.2.fill_rate).isSome = true) →
    ∀ m, pickMin l = some m →
    ∃ l1 l2, l = l1 ++ m :: l2
      ∧ (∀ y ∈ l1, jsLtB m.2.fill_rate y.2.fill_rate = true)
      ∧ (∀ y ∈ l, jsLeB m.2.fill_rate y.2.fill_rate = true) := by
  intro l
  induction l with
  | nil => intro _ m h; exact absurd h (by simp [pickMin])
  | cons x xs ih =>
    intro hfin m hm
    obtain ⟨qx, hqx⟩ := Option.isSome_iff_exists.mp (hfin x (List.mem_cons_self x xs))
    cases hx : pickMin xs with
    | none =>
      have hxs : xs = [] := (pickMin_eq_none xs).mp hx
      rw [pickMin_cons_none x xs hx] at hm
      injection hm with hm
      subst hm
      subst hxs
      refine ⟨[], [], rfl, by simp, ?_⟩
      intro y hy
      rw [List.mem_singleton] at hy
      subst hy
      rw [hqx, jsLeB_some_iff]
    | some m0 =>
      rw [pickMin_cons_some x xs m0 hx] at hm
      have hm0fin := hfin m0 (List.mem_cons_of_mem x (pickMin_mem xs m0 hx))
      obtain ⟨q0, hq0⟩ := Option.isSome_iff_exists.mp hm0fin
      obtain ⟨l1, l2, hdec, hstrict, hminim⟩ :=
        ih (fun y hy => hfin y (List.mem_cons_of_mem x hy)) m0 hx
      by_cases hc : jsLeB x.2.fill_rate m0.2.fill_rate = true
      · rw [if_pos hc] at hm
        injection hm with hm
        subst hm
        refine ⟨[], xs, rfl, by simp, ?_⟩
        intro y hy
        rcases List.mem_cons.mp hy with hy | hy
        · subst hy; rw [hqx, jsLeB_some_iff]
        · obtain ⟨qy, hqy⟩ :=
            Option.isSome_iff_exists.mp (hfin y (List.mem_cons_of_mem x hy))
          have h1 : qx ≤ q0 := by
            rw [hqx, hq0, jsLeB_some_iff] at hc; exact hc
          have h2 : q0 ≤ qy := by
            have := hminim y hy
            rw [hq0, hqy, jsLeB_some_iff] at this; exact this
          rw [hqx, hqy, jsLeB_some_iff]
          exact le_trans h1 h2
      · rw [if_neg hc] at hm
        injection hm with hm
        subst hm
        have hlt : q0 < qx := by
          rw [hqx, hq0, jsLeB_some_iff] at hc
          exact lt_of_not_le hc
        refine ⟨x :: l1, l2, by rw [hdec, List.cons_append], ?_, ?_⟩
        · intro y hy
          rcases List.mem_cons.mp hy with hy | hy
          · subst hy
            rw [hq0, hqx, jsLtB_some_iff]
            exact hlt
          · exact hstrict y hy
        · intro y hy
          rcases List.mem_cons.mp hy with hy | hy
          · subst hy
            rw [hq0, hqx, jsLeB_some_iff]
            exact le_of_lt hlt
          · exact hminim y hy

theorem enumFrom_fst_le : ∀ (l : List Allocation) (k : ℕ) (y : ℕ × Allocation),
    y ∈ List.enumFrom k l → k ≤ y.1 := by
  intro l
  induction l with
  | nil => intro k y h; exact absurd h (by simp)
  | cons a t ih =>
    intro k y h
    rw [List.enumFrom] at h
    rcases List.mem_cons.mp h with h | h
    · subst h; exact le_refl k
    · exact le_trans (Nat.le_succ k) (ih (k + 1) y h)

theorem enumFrom_pairwise : ∀ (l : List Allocation) (k : ℕ),
    (List.enumFrom k l).Pairwise (fun a b => a.1 < b.1) := by
  intro l
  induction l with
  | nil => intro k; simp
  | cons a t ih =>
    intro k
    rw [List.enumFrom, List.pairwise_cons]
    exact ⟨fun y hy => lt_of_lt_of_le (Nat.lt_succ_self k) (enumFrom_fst_le t (k + 1) y hy),
      ih (k + 1)⟩

/-- Claim C9: the selection step of the redistribution loop is max-min with a
stable tie-break.  Whenever `selectNeedy` picks the pair `(j, a)`, `a` is the
allocation at index `j`, it is needy, its fill rate is less than or equal to
the fill rate of every needy allocation, strictly less than that of every
needy allocation at an earlier index (ties go to the earliest index), and
while `remaining > 0` one loop iteration grants exactly this allocation one
unit. -/
theorem c9_maxmin_selection (allocs : List Allocation)
    (hfin : ∀ a ∈ allocs, (a.fill_rate).isSome = true)
    (j : ℕ) (a : Allocation) (hsel : selectNeedy allocs = some (j, a)) :
    allocs[j]? = some a ∧ needyB a = true
    ∧ (∀ (k : ℕ) (b : Allocation), allocs[k]? = some b → needyB b = true →
        jsLeB a.fill_rate b.fill_rate = true)
    ∧ (∀ (k : ℕ) (b : Allocation), k < j → allocs[k]? = some b → needyB b = true →
        jsLtB a.fill_rate b.fill_rate = true)
    ∧ (∀ rem fuel, jsGtB rem (some 0) = true →
        redistribute allocs rem (fuel + 1)
          = redistribute (allocs.set j (grantUnit a)) (jsSub rem (some 1)) fuel) := by
  rw [selectNeedy, head_insertionSort_pickMin] at hsel
  have hLfin : ∀ y ∈ (allocs.enum).filter (fun p => needyB p.2),
      (y.2.fill_rate).isSome = true := by
    intro y hy
    have hyE := List.mem_of_mem_filter hy
    have := List.mem_enum_iff_getElem?.mp hyE
    exact hfin y.2 (List.getElem?_mem this)
  obtain ⟨l1, l2, hdec, hstrict, hminim⟩ :=
    pickMin_spec ((allocs.enum).filter (fun p => needyB p.2)) hLfin (j, a) hsel
  have hmemL : (j, a) ∈ (allocs.enum).filter (fun p => needyB p.2) :=
    pickMin_mem _ _ hsel
  have hmemE := List.mem_of_mem_filter hmemL
  have hget : allocs[j]? = some a := List.mem_enum_iff_getElem?.mp hmemE
  have hneedy : needyB a = true := by
    have := List.of_mem_filter hmemL
    exact this
  have hpw : ((allocs.enum).filter (fun p => needyB p.2)).Pairwise
      (fun x y : ℕ × Allocation => x.1 < y.1) := by
    have := enumFrom_pairwise allocs 0
    exact List.Pairwise.filter _ this
  refine ⟨hget, hneedy, ?_, ?_, ?_⟩
  · intro k b hk hb
    have hmem2 : (k, b) ∈ (allocs.enum).filter (fun p => needyB p.2) :=
      List.mem_filter.mpr ⟨List.mem_enum_iff_getElem?.mpr hk, hb⟩
    exact hminim (k, b) hmem2
  · intro k b hkj hk hb
    have hmem2 : (k, b) ∈ (allocs.enum).filter (fun p => needyB p.2) :=
      List.mem_filter.mpr ⟨List.mem_enum_iff_getElem?.mpr hk, hb⟩
    rw [hdec] at hmem2
    rcases List.mem_append.mp hmem2 with hin | hin
    · exact hstrict (k, b) hin
    · rcases List.mem_cons.mp hin with hin | hin
      · exact absurd (congrArg Prod.fst hin) (by simp; exact Nat.ne_of_lt hkj)
      · rw [hdec] at hpw
        rw [List.pairwise_append] at hpw
        have := (List.pairwise_cons.mp hpw.2.1).1 (k, b) hin
        exact absurd this (by simp; exact Nat.le_of_lt hkj)
  · intro rem fuel hgt
    conv_lhs => rw [redistribute]
    rw [if_pos hgt, selectNeedy, head_insertionSort_pickMin, hsel]

/-- Witness for claim C9 at a concrete state: of the two needy allocations,
`allocB` (fill rate 0, index 1) is selected over `allocA` (fill rate 1/2,
index 0), and the comparison facts hold. -/
theorem c9_witness :
    (∀ a ∈ [allocA, allocB], (a.fill_rate).isSome = true)
    ∧ selectNeedy [allocA, allocB] = some (1, allocB)
    ∧ [allocA, allocB][1]? = some allocB ∧ needyB allocB = true
    ∧ jsLeB allocB.fill_rate allocA.fill_rate = true
    ∧ jsLtB allocB.fill_rate allocA.fill_rate = true := by
  have h := c9_maxmin_selection [allocA, allocB] (by decide) 1 allocB (by decide)
  exact ⟨by decide, by decide, h.1, h.2.1,
    h.2.2.1 0 allocA (by decide) (by decide),
    h.2.2.2.1 0 allocA (by decide) (by decide) (by decide)⟩

/-- The loop's selection returns an element of the list that is needy. -/
theorem selectNeedy_mem (allocs : List Allocation) (j : ℕ) (a : Allocation)
    (h : selectNeedy allocs = some (j, a)) :
    allocs[j]? = some a ∧ needyB a = true := by
  rw [selectNeedy, head_insertionSort_pickMin] at h
  have hmemL := pickMin_mem _ _ h
  have hpa := List.of_mem_filter hmemL
  exact ⟨List.mem_enum_iff_getElem?.mp (List.mem_of_mem_filter hmemL), hpa⟩

/-- Any per-allocation invariant preserved by granting a unit to a needy
allocation is preserved by the whole redistribution loop. -/
theorem redistribute_pointwise (Inv : Allocation → Prop)
    (hstep : ∀ a, Inv a → needyB a = true → Inv (grantUnit a)) :
    ∀ (fuel : ℕ) (allocs : List Allocation) (rem : JQ),
      (∀ a ∈ allocs, Inv a) → ∀ b ∈ (redistribute allocs rem fuel).1, Inv b := by
  intro fuel
  induction fuel with
  | zero => intro allocs rem h b hb; exact h b hb
  | succ fuel ih =>
    intro allocs rem h b hb
    rw [redistribute] at hb
    by_cases hgt : jsGtB rem (some 0) = true
    · rw [if_pos hgt] at hb
      cases hs : selectNeedy allocs with
      | none => simp only [hs] at hb; exact h b hb
      | some ja =>
        obtain ⟨j, a⟩ := ja
        simp only [hs] at hb
        obtain ⟨hget, hneedy⟩ := selectNeedy_mem allocs j a hs
        have hmem_a : a ∈ allocs := List.getElem?_mem hget
        refine ih _ _ ?_ b hb
        intro c hc
        rcases List.mem_or_eq_of_mem_set hc with hc | hc
        · exact h c hc
        · exact hc ▸ hstep a (h a hmem_a) hneedy
    · rw [if_neg hgt] at hb; exact h b hb

/-- Per-allocation invariant for claim C2: integer allocated amount bounded
by the (natural-number) requested amount. -/
def BoundedInv (a : Allocation) : Prop :=
  ∃ (m : ℤ) (n : ℕ), a.allocated = some ((m : ℚ)) ∧ a.requested = some ((n : ℚ)) ∧ m ≤ n

theorem grantUnit_bounded (a : Allocation) (h : BoundedInv a) (hneedy : needyB a = true) :
    BoundedInv (grantUnit a) := by
  obtain ⟨m, n, hal, hreq, hle⟩ := h
  rw [needyB, hal, hreq] at hneedy
  rw [jsLtB_some_iff] at hneedy
  have hmn : m < (n : ℤ) := by exact_mod_cast hneedy
  refine ⟨m + 1, n, ?_, hreq, by omega⟩
  simp only [grantUnit, hal, jsAdd]
  push_cast
  rfl

/-- The initial allocation of an eligible demand satisfies `BoundedInv` when
all amounts are naturals, the total eligible demand is a positive `T`, and
the (natural) capacity does not exceed `T`. -/
theorem initialAllocation_bounded (c : ℕ) (T : ℚ) (hT : 0 < T) (hcap : ((c : ℚ)) ≤ T)
    (d : DemandInfo) (n : ℕ) (hamt : d.amount = some ((n : ℚ))) :
    BoundedInv (initialAllocation (some T) (some ((c : ℚ))) d) := by
  have hTne : T ≠ 0 := ne_of_gt hT
  simp only [initialAllocation, hamt, jsMul, jsDiv, if_neg hTne, jsFloor]
  set x : ℚ := ((n : ℚ)) * 1 / T * ((c : ℚ)) with hx
  by_cases hcond : (jsEqB (some ((⌊x⌋ : ℤ) : ℚ)) (some 0)
      && jsGtB (some ((c : ℚ))) (some 0) && jsGtB (some ((n : ℚ))) (some 0)) = true
  · rw [if_pos hcond]
    simp only [Bool.and_eq_true, jsGtB, decide_eq_true_eq] at hcond
    have hc1 : (1 : ℚ) ≤ ((c : ℚ)) := by
      have : (0 : ℚ) < ((c : ℚ)) := hcond.1.2
      have hc0 : 0 < c := by exact_mod_cast this
      exact_mod_cast hc0
    have hn1 : 1 ≤ n := by
      have : (0 : ℚ) < ((n : ℚ)) := hcond.2
      exact_mod_cast this
    refine ⟨1, n, ?_, rfl, by exact_mod_cast hn1⟩
    simp only [jsMin]
    rw [min_eq_left hc1]
    norm_num
  · rw [if_neg hcond]
    refine ⟨⌊x⌋, n, rfl, rfl, ?_⟩
    have hxle : x ≤ ((n : ℚ)) := by
      rw [hx, mul_one]
      rw [div_mul_eq_mul_div, div_le_iff₀ hT]
      have hn0 : (0 : ℚ) ≤ ((n : ℚ)) := by positivity
      nlinarith
    have h1 : ((⌊x⌋ : ℤ) : ℚ) ≤ ((n : ℚ)) := le_trans (Int.floor_le x) hxle
    exact_mod_cast h1

/-- Claim C2, amended: when every requested amount is a natural number and
the capacity is a natural number not exceeding the (positive) total eligible
demand, every allocation returned by `allocateResources` has an integer
allocated amount bounded by its requested amount. -/
theorem c2_amended (sink : AtomDecision → Except String TrailEntry) (clock : Clock)
    (demands : List DemandInfo) (c : ℕ) (T : ℚ) (r : AllocationResult)
    (hamt : ∀ d ∈ demands, ∃ n : ℕ, d.amount = some ((n : ℚ)))
    (htot : totalWeightedDemand (validDemands demands) = some T)
    (hT : 0 < T) (hcap : ((c : ℚ)) ≤ T)
    (h : allocateResources sink clock demands (some ((c : ℚ))) = Except.ok r) :
    ∀ a ∈ r.allocations, ∃ (m : ℤ) (n : ℕ),
      a.allocated = some ((m : ℚ)) ∧ a.requested = some ((n : ℚ)) ∧ m ≤ n := by
  have hfields := (allocateResources_ok_fields sink clock demands (some ((c : ℚ))) r h).1
  have halloc : r.allocations = (resultCore demands (some ((c : ℚ)))).1 := by
    rw [← hfields]
  by_cases hv : (validDemands demands).length = 0
  · exfalso
    have hnil : validDemands demands = [] := List.length_eq_zero.mp hv
    rw [hnil] at htot
    have : T = 0 := by
      have : (some (0 : ℚ) : JQ) = some T := htot
      injection this with h0
      exact h0.symm
    exact absurd (this ▸ hT) (lt_irrefl 0)
  · rw [resultCore, if_neg hv] at halloc
    rw [halloc]
    intro a ha
    rcases List.mem_append.mp ha with ha | ha
    · -- eligible: through the loop
      have hinv : ∀ b ∈ validAllocations demands (some ((c : ℚ))), BoundedInv b := by
        intro b hb
        rw [validAllocations, htot] at hb
        obtain ⟨d, hd, hdb⟩ := List.mem_map.mp hb
        obtain ⟨n, hn⟩ := hamt d (List.mem_of_mem_filter hd)
        exact hdb ▸ initialAllocation_bounded c T hT hcap d n hn
      have hfinal : ∀ b ∈ finalValidAllocations demands (some ((c : ℚ))), BoundedInv b := by
        intro b hb
        rw [finalValidAllocations] at hb
        exact redistribute_pointwise BoundedInv grantUnit_bounded _ _ _ hinv b hb
      exact hfinal a ha
    · -- ineligible: zero allocation
      rw [invalidAllocations] at ha
      obtain ⟨d, hd, hda⟩ := List.mem_map.mp ha
      obtain ⟨n, hn⟩ := hamt d (List.mem_of_mem_filter hd)
      refine ⟨0, n, ?_, ?_, by omega⟩
      · rw [← hda]; norm_num
      · rw [← hda]; exact hn

/-- Witness for the amended claim C2: two eligible demands of 1 and 3 with
capacity 4 (equal to the total demand); each allocation satisfies
`allocated ≤ requested`. -/
theorem c2_amended_witness :
    (∀ d ∈ [mkD ("u") (some 1) none none, mkD ("v") (some 3) none none],
        ∃ n : ℕ, d.amount = some ((n : ℚ)))
    ∧ totalWeightedDemand (validDemands
        [mkD ("u") (some 1) none none, mkD ("v") (some 3) none none]) = some 4
    ∧ (0 : ℚ) < 4 ∧ (((4 : ℕ) : ℚ)) ≤ 4
    ∧ ∀ a ∈ ([{ agent_id := ("u"), allocated := some 1, requested := some 1,
                 fill_rate := some 1 },
               { agent_id := ("v"), allocated := some 3, requested := some 3,
                 fill_rate := some 1 }] : List Allocation),
        ∃ (m : ℤ) (n : ℕ),
          a.allocated = some ((m : ℚ)) ∧ a.requested = some ((n : ℚ)) ∧ m ≤ n := by
  have hamt : ∀ d ∈ [mkD ("u") (some 1) none none, mkD ("v") (some 3) none none],
      ∃ n : ℕ, d.amount = some ((n : ℚ)) := by
    intro d hd
    rcases List.mem_cons.mp hd with hd | hd
    · exact ⟨1, by rw [hd]; norm_num [mkD]⟩
    · rw [List.mem_singleton] at hd
      exact ⟨3, by rw [hd]; norm_num [mkD]⟩
  have hrun : allocateResources okSink clock0
      [mkD ("u") (some 1) none none, mkD ("v") (some 3) none none] (some (((4 : ℕ) : ℚ)))
      = Except.ok
        { allocations :=
            [{ agent_id := ("u"), allocated := some 1, requested := some 1,
               fill_rate := some 1 },
             { agent_id := ("v"), allocated := some 3, requested := some 3,
               fill_rate := some 1 }]
          total_allocated := some 4
          total_requested := some 4
          efficiency := some 100
          fairness_metrics :=
            { gini_coefficient := some 0, min_fill_rate := some 1,
              max_fill_rate := some 1, avg_fill_rate := some 1, timezone_parity := some 100 }
          timestamp := ("t1")
          provenance := { atom_tag := ("ATOM-ALLOC-0"), trail_id := ("trail-1") } } := by
    decide
  have h := c2_amended okSink clock0
    [mkD ("u") (some 1) none none, mkD ("v") (some 3) none none] 4 4 _
    hamt (by decide) (by norm_num) (by norm_num) hrun
  exact ⟨hamt, by decide, by norm_num, by norm_num, h⟩

theorem jsAdd_zero_right (x : JQ) : jsAdd x (some 0) = x := by
  cases x <;> simp [jsAdd]

theorem jsAdd_zero_left (x : JQ) : jsAdd (some 0) x = x := by
  cases x <;> simp [jsAdd]

theorem jsAdd_assoc (x y z : JQ) : jsAdd (jsAdd x y) z = jsAdd x (jsAdd y z) := by
  cases x <;> cases y <;> cases z <;> simp [jsAdd, add_assoc]

theorem sumAllocated_acc : ∀ (l : List Allocation) (x : JQ),
    List.foldl (fun s a => jsAdd s a.allocated) x l = jsAdd x (sumAllocated l) := by
  intro l
  induction l with
  | nil => intro x; simp [sumAllocated, jsAdd_zero_right]
  | cons b t ih =>
    intro x
    rw [List.foldl_cons, ih]
    have hrhs : sumAllocated (b :: t) = jsAdd b.allocated (sumAllocated t) := by
      rw [sumAllocated, List.foldl_cons, ih, jsAdd_zero_left]
    rw [hrhs, jsAdd_assoc]

theorem sumAllocated_cons (b : Allocation) (t : List Allocation) :
    sumAllocated (b :: t) = jsAdd b.allocated (sumAllocated t) := by
  rw [sumAllocated, List.foldl_cons, sumAllocated_acc, jsAdd_zero_left]

theorem sumAllocated_append (l1 l2 : List Allocation) :
    sumAllocated (l1 ++ l2) = jsAdd (sumAllocated l1) (sumAllocated l2) := by
  rw [sumAllocated, List.foldl_append, sumAllocated_acc]
  rfl

theorem jsAdd_eq_some {u v : JQ} {s : ℚ} (h : jsAdd u v = some s) :
    ∃ p q : ℚ, u = some p ∧ v = some q ∧ p + q = s := by
  cases u with
  | none => simp [jsAdd] at h
  | some p =>
    cases v with
    | none => simp [jsAdd] at h
    | some q =>
      refine ⟨p, q, rfl, rfl, ?_⟩
      simpa [jsAdd] using h

theorem sumAllocated_set_fin : ∀ (l : List Allocation) (j : ℕ) (a b : Allocation)
    (S ma mb : ℚ), l[j]? = some a → sumAllocated l = some S →
    a.allocated = some ma → b.allocated = some mb →
    sumAllocated (l.set j b) = some (S - ma + mb) := by
  intro l
  induction l with
  | nil => intro j a b S ma mb hj; simp at hj
  | cons x t ih =>
    intro j a b S ma mb hj hsum hma hmb
    cases j with
    | zero =>
      rw [List.getElem?_cons_zero] at hj
      injection hj with hj
      rw [List.set_cons_zero]
      rw [sumAllocated_cons] at hsum
      rw [hj, hma] at hsum
      obtain ⟨p, q, hp, hq, hpq⟩ := jsAdd_eq_some hsum
      injection hp with hp
      rw [sumAllocated_cons, hmb, hq, jsAdd]
      congr 1
      subst hp
      linarith
    | succ j =>
      rw [List.getElem?_cons_succ] at hj
      rw [List.set_cons_succ]
      rw [sumAllocated_cons] at hsum
      obtain ⟨p, q, hp, hq, hpq⟩ := jsAdd_eq_some hsum
      rw [sumAllocated_cons, ih j a b q ma mb hj hq hma hmb, hp, jsAdd]
      congr 1
      linarith

/-- Sum and remainder bookkeeping of the redistribution loop on a state with
finite integer allocations and a finite integer remainder: the quantity
`sum + remaining` is invariant, and the final remainder can only fall below
its starting value, never below `min remaining 0`. -/
theorem redistribute_sum : ∀ (fuel : ℕ) (allocs : List Allocation) (z S : ℤ),
    (∀ a ∈ allocs, ∃ m : ℤ, a.allocated = some ((m : ℚ))) →
    sumAllocated allocs = some ((S : ℚ)) →
    ∃ (S2 z2 : ℤ),
      sumAllocated (redistribute allocs (some ((z : ℚ))) fuel).1 = some ((S2 : ℚ))
      ∧ (redistribute allocs (some ((z : ℚ))) fuel).2 = some ((z2 : ℚ))
      ∧ S2 + z2 = S + z ∧ min z 0 ≤ z2 := by
  intro fuel
  induction fuel with
  | zero =>
    intro allocs z S hfin hsum
    exact ⟨S, z, hsum, rfl, rfl, min_le_left z 0⟩
  | succ fuel ih =>
    intro allocs z S hfin hsum
    by_cases hgt : jsGtB (some ((z : ℚ))) (some 0) = true
    · have hz : 0 < z := by
        rw [jsGtB] at hgt
        rw [decide_eq_true_eq] at hgt
        exact_mod_cast hgt
      cases hs : selectNeedy allocs with
      | none =>
        rw [redistribute, if_pos hgt]
        simp only [hs]
        exact ⟨S, z, hsum, rfl, rfl, by omega⟩
      | some ja =>
        obtain ⟨j, a⟩ := ja
        obtain ⟨hget, hneedy⟩ := selectNeedy_mem allocs j a hs
        obtain ⟨ma, hma⟩ := hfin a (List.getElem?_mem hget)
        have hgrant : (grantUnit a).allocated = some (((ma + 1 : ℤ) : ℚ)) := by
          simp only [grantUnit, hma, jsAdd]
          push_cast
          rfl
        have hsum2 : sumAllocated (allocs.set j (grantUnit a)) = some (((S + 1 : ℤ) : ℚ)) := by
          rw [sumAllocated_set_fin allocs j a (grantUnit a) ((S : ℚ)) ((ma : ℚ))
            (((ma + 1 : ℤ) : ℚ)) hget hsum hma hgrant]
          congr 1
          push_cast
          ring
        have hfin2 : ∀ b ∈ allocs.set j (grantUnit a), ∃ m : ℤ, b.allocated = some ((m : ℚ)) := by
          intro b hb
          rcases List.mem_or_eq_of_mem_set hb with hb | hb
          · exact hfin b hb
          · exact ⟨ma + 1, hb ▸ hgrant⟩
        obtain ⟨S2, z2, hS2, hz2, hinv, hlow⟩ := ih (allocs.set j (grantUnit a)) (z - 1) (S + 1)
          hfin2 hsum2
        have hsub : jsSub (some ((z : ℚ))) (some 1) = some (((z - 1 : ℤ) : ℚ)) := by
          simp only [jsSub]
          congr 1
          push_cast
          ring
        rw [redistribute, if_pos hgt]
        simp only [hs, hsub]
        exact ⟨S2, z2, hS2, hz2, by omega, by omega⟩
    · rw [redistribute, if_neg hgt]
      exact ⟨S, z, hsum, rfl, rfl, min_le_left z 0⟩

theorem totalWeightedDemand_acc : ∀ (l : List DemandInfo) (x : JQ),
    List.foldl (fun s d => jsAdd s (jsMul d.amount (some 1))) x l
      = jsAdd x (totalWeightedDemand l) := by
  intro l
  induction l with
  | nil => intro x; simp [totalWeightedDemand, jsAdd_zero_right]
  | cons b t ih =>
    intro x
    rw [List.foldl_cons, ih]
    have hrhs : totalWeightedDemand (b :: t)
        = jsAdd (jsMul b.amount (some 1)) (totalWeightedDemand t) := by
      rw [totalWeightedDemand, List.foldl_cons, ih, jsAdd_zero_left]
    rw [hrhs, jsAdd_assoc]

theorem totalWeightedDemand_fin : ∀ l : List DemandInfo,
    (∀ d ∈ l, ∃ q : ℚ, d.amount = some q ∧ 0 ≤ q) →
    totalWeightedDemand l = some ((l.map fun d => d.amount.getD 0).sum) := by
  intro l
  induction l with
  | nil => intro _; rfl
  | cons b t ih =>
    intro h
    obtain ⟨q, hq, _⟩ := h b (List.mem_cons_self b t)
    have ht := ih fun d hd => h d (List.mem_cons_of_mem b hd)
    have hcons : totalWeightedDemand (b :: t)
        = jsAdd (jsMul b.amount (some 1)) (totalWeightedDemand t) := by
      rw [totalWeightedDemand, List.foldl_cons, totalWeightedDemand_acc, jsAdd_zero_left]
    rw [hcons, ht, hq]
    simp [jsMul, jsAdd, hq]

theorem invalidAllocations_sum (demands : List DemandInfo) :
    sumAllocated (invalidAllocations demands) = some 0 := by
  rw [invalidAllocations]
  induction invalidDemands demands with
  | nil => rfl
  | cons b t ih =>
    rw [List.map_cons, sumAllocated_cons, ih]
    simp [jsAdd]

/-- Value and bound of a single initial allocation when the amount is a
non-negative rational and the capacity a natural number. -/
theorem initialAllocation_val (c : ℕ) (T : ℚ) (hT : 0 < T) (d : DemandInfo) (q : ℚ)
    (hamt : d.amount = some q) (hq : 0 ≤ q) :
    ∃ m : ℤ, (initialAllocation (some T) (some ((c : ℚ))) d).allocated = some ((m : ℚ))
      ∧ 0 ≤ m ∧ ((m : ℚ)) ≤ q / T * ((c : ℚ)) + 1 := by
  have hTne : T ≠ 0 := ne_of_gt hT
  simp only [initialAllocation, hamt, jsMul, jsDiv, if_neg hTne, jsFloor]
  set x : ℚ := q * 1 / T * ((c : ℚ)) with hxd
  have hx0 : 0 ≤ x := by
    rw [hxd]
    positivity
  have hxval : x = q / T * ((c : ℚ)) := by rw [hxd, mul_one]
  by_cases hcond : (jsEqB (some ((⌊x⌋ : ℤ) : ℚ)) (some 0)
      && jsGtB (some ((c : ℚ))) (some 0) && jsGtB (some q) (some 0)) = true
  · rw [if_pos hcond]
    simp only [Bool.and_eq_true, jsGtB, decide_eq_true_eq] at hcond
    have hc1 : (1 : ℚ) ≤ ((c : ℚ)) := by
      have hc0 : 0 < c := by exact_mod_cast hcond.1.2
      exact_mod_cast hc0
    refine ⟨1, ?_, by omega, ?_⟩
    · simp only [jsMin]
      rw [min_eq_left hc1]
      norm_num
    · push_cast
      rw [← hxval]
      linarith
  · rw [if_neg hcond]
    refine ⟨⌊x⌋, rfl, Int.floor_nonneg.mpr hx0, ?_⟩
    rw [hxval]
    have h1 : ((⌊q / T * ((c : ℚ))⌋ : ℤ) : ℚ) ≤ q / T * ((c : ℚ)) := Int.floor_le _
    linarith

/-- Sum bound of the initial allocations: each contributes at most its
proportional share plus one unit, so the total is at most
`(Σ amounts) / T * c + length`. -/
theorem initial_sum_bound (c : ℕ) (T : ℚ) (hT : 0 < T) :
    ∀ l : List DemandInfo, (∀ d ∈ l, ∃ q : ℚ, d.amount = some q ∧ 0 ≤ q) →
    ∃ S : ℤ,
      sumAllocated (l.map (initialAllocation (some T) (some ((c : ℚ))))) = some ((S : ℚ))
      ∧ (∀ a ∈ l.map (initialAllocation (some T) (some ((c : ℚ)))),
          ∃ m : ℤ, a.allocated = some ((m : ℚ)))
      ∧ ((S : ℚ)) ≤ ((l.map fun d => d.amount.getD 0).sum) / T * ((c : ℚ)) + l.length := by
  intro l
  induction l with
  | nil =>
    intro _
    refine ⟨0, rfl, by simp, ?_⟩
    simp
  | cons d t ih =>
    intro h
    obtain ⟨q, hq, hq0⟩ := h d (List.mem_cons_self d t)
    obtain ⟨S', hS', hfin', hSb'⟩ := ih fun e he => h e (List.mem_cons_of_mem d he)
    obtain ⟨m, hm, hm0, hmb⟩ := initialAllocation_val c T hT d q hq hq0
    refine ⟨m + S', ?_, ?_, ?_⟩
    · rw [List.map_cons, sumAllocated_cons, hm, hS', jsAdd]
      congr 1
      push_cast
      ring
    · intro a ha
      rw [List.map_cons] at ha
      rcases List.mem_cons.mp ha with ha | ha
      · exact ⟨m, ha ▸ hm⟩
      · exact hfin' a ha
    · rw [List.map_cons, List.sum_cons, hq]
      simp only [Option.getD_some]
      have hsplit : (q + ((t.map fun d => d.amount.getD 0).sum)) / T * ((c : ℚ))
          = q / T * ((c : ℚ)) + ((t.map fun d => d.amount.getD 0).sum) / T * ((c : ℚ)) := by
        field_simp
        ring
      rw [List.length_cons, hsplit]
      push_cast
      linarith

/-- Claim C1, amended: for demands with finite non-negative amounts, a
natural-number capacity `c`, and positive total eligible demand, the total
allocated is finite and at most `c` plus the number of eligible demands.
(The unamended `≤ c` fails: `c1_counterexample`.) -/
theorem c1_amended (sink : AtomDecision → Except String TrailEntry) (clock : Clock)
    (demands : List DemandInfo) (c : ℕ) (T : ℚ) (r : AllocationResult)
    (hamt : ∀ d ∈ demands, ∃ q : ℚ, d.amount = some q ∧ 0 ≤ q)
    (htot : totalWeightedDemand (validDemands demands) = some T) (hT : 0 < T)
    (h : allocateResources sink clock demands (some ((c : ℚ))) = Except.ok r) :
    ∃ S : ℚ, r.total_allocated = some S
      ∧ S ≤ ((c : ℚ)) + (((validDemands demands).length : ℚ)) := by
  have hfields := (allocateResources_ok_fields sink clock demands (some ((c : ℚ))) r h).1
  have htotal : r.total_allocated = (resultCore demands (some ((c : ℚ)))).2.1 := by
    rw [← hfields]
  by_cases hv : (validDemands demands).length = 0
  · exfalso
    have hnil : validDemands demands = [] := List.length_eq_zero.mp hv
    rw [hnil] at htot
    have h0 : (some (0 : ℚ) : JQ) = some T := htot
    injection h0 with h0
    rw [← h0] at hT
    exact lt_irrefl 0 hT
  · rw [resultCore, if_neg hv] at htotal
    have hvamt : ∀ d ∈ validDemands demands, ∃ q : ℚ, d.amount = some q ∧ 0 ≤ q :=
      fun d hd => hamt d (List.mem_of_mem_filter hd)
    obtain ⟨S0, hS0, hfin0, hSb0⟩ := initial_sum_bound c T hT (validDemands demands) hvamt
    have hTsum : ((validDemands demands).map fun d => d.amount.getD 0).sum = T := by
      have := totalWeightedDemand_fin (validDemands demands) hvamt
      rw [htot] at this
      injection this with h1
      exact h1.symm
    have hbound : ((S0 : ℚ)) ≤ ((c : ℚ)) + (((validDemands demands).length : ℚ)) := by
      rw [hTsum, div_self (ne_of_gt hT), one_mul] at hSb0
      linarith
    have hva : validAllocations demands (some ((c : ℚ)))
        = (validDemands demands).map (initialAllocation (some T) (some ((c : ℚ)))) := by
      rw [validAllocations, htot]
    have hrem : jsSub (some ((c : ℚ))) (sumAllocated (validAllocations demands (some ((c : ℚ)))))
        = some ((((c : ℤ) - S0 : ℤ) : ℚ)) := by
      rw [hva, hS0]
      simp only [jsSub]
      congr 1
      push_cast
      ring
    obtain ⟨S2, z2, hS2, hz2, hinv, hlow⟩ :=
      redistribute_sum (loopFuel (some ((((c : ℤ) - S0 : ℤ) : ℚ))))
        ((validDemands demands).map (initialAllocation (some T) (some ((c : ℚ)))))
        ((c : ℤ) - S0) S0 hfin0 hS0
    have hfinal : sumAllocated (finalValidAllocations demands (some ((c : ℚ))))
        = some ((S2 : ℚ)) := by
      rw [finalValidAllocations]
      rw [hrem, hva]
      exact hS2
    refine ⟨((S2 : ℚ)), ?_, ?_⟩
    · rw [htotal]
      show sumAllocated (allAllocations demands (some ((c : ℚ)))) = some ((S2 : ℚ))
      rw [allAllocations, sumAllocated_append, hfinal, invalidAllocations_sum, jsAdd_zero_right]
    · have hS2b : S2 ≤ max ((c : ℤ)) S0 := by omega
      have hcb : ((c : ℚ)) ≤ ((c : ℚ)) + (((validDemands demands).length : ℚ)) := by
        have : (0 : ℚ) ≤ (((validDemands demands).length : ℚ)) := by positivity
        linarith
      rcases max_cases ((c : ℤ)) S0 with ⟨hmax, _⟩ | ⟨hmax, _⟩
      · have : ((S2 : ℚ)) ≤ ((c : ℚ)) := by exact_mod_cast hS2b.trans_eq hmax
        linarith
      · have : ((S2 : ℚ)) ≤ ((S0 : ℚ)) := by exact_mod_cast hS2b.trans_eq hmax
        linarith

/-- Witness for the amended claim C1 at the bump-overshoot input: three unit
demands with capacity 2 give total allocated 3, within the amended bound
`2 + 3`. -/
theorem c1_amended_witness :
    (∀ d ∈ [mkD ("a") (some 1) none none, mkD ("b") (some 1) none none,
        mkD ("c") (some 1) none none], ∃ q : ℚ, d.amount = some q ∧ 0 ≤ q)
    ∧ totalWeightedDemand (validDemands [mkD ("a") (some 1) none none,
        mkD ("b") (some 1) none none, mkD ("c") (some 1) none none]) = some 3
    ∧ (0 : ℚ) < 3
    ∧ ∃ S : ℚ, (some (3 : ℚ) : JQ) = some S
      ∧ S ≤ (((2 : ℕ) : ℚ))
          + (((validDemands [mkD ("a") (some 1) none none, mkD ("b") (some 1) none none,
              mkD ("c") (some 1) none none]).length : ℚ)) := by
  have hamt : ∀ d ∈ [mkD ("a") (some 1) none none, mkD ("b") (some 1) none none,
      mkD ("c") (some 1) none none], ∃ q : ℚ, d.amount = some q ∧ 0 ≤ q := by
    intro d hd
    rcases List.mem_cons.mp hd with hd | hd
    · exact ⟨1, by rw [hd]; exact ⟨rfl, by norm_num⟩⟩
    rcases List.mem_cons.mp hd with hd | hd
    · exact ⟨1, by rw [hd]; exact ⟨rfl, by norm_num⟩⟩
    · rw [List.mem_singleton] at hd
      exact ⟨1, by rw [hd]; exact ⟨rfl, by norm_num⟩⟩
  have hrun : allocateResources okSink clock0 [mkD ("a") (some 1) none none,
      mkD ("b") (some 1) none none, mkD ("c") (some 1) none none] (some (((2 : ℕ) : ℚ)))
      = Except.ok
        { allocations :=
            [{ agent_id := ("a"), allocated := some 1, requested := some 1,
               fill_rate := some 1 },
             { agent_id := ("b"), allocated := some 1, requested := some 1,
               fill_rate := some 1 },
             { agent_id := ("c"), allocated := some 1, requested := some 1,
               fill_rate := some 1 }]
          total_allocated := some 3
          total_requested := some 3
          efficiency := some 150
          fairness_metrics :=
            { gini_coefficient := some 0, min_fill_rate := some 1,
              max_fill_rate := some 1, avg_fill_rate := some 1, timezone_parity := some 100 }
          timestamp := ("t1")
          provenance := { atom_tag := ("ATOM-ALLOC-0"), trail_id := ("trail-1") } } := by
    decide
  have h := c1_amended okSink clock0 [mkD ("a") (some 1) none none,
    mkD ("b") (some 1) none none, mkD ("c") (some 1) none none] 2 3 _
    hamt (by decide) (by norm_num) hrun
  exact ⟨hamt, by decide, by norm_num, h⟩

theorem foldl_jsAdd_foldr : ∀ (l : List JQ) (x : JQ),
    l.foldl jsAdd x = jsAdd x (l.foldr jsAdd (some 0)) := by
  intro l
  induction l with
  | nil => intro x; simp [jsAdd_zero_right]
  | cons b t ih =>
    intro x
    rw [List.foldl_cons, ih, List.foldr_cons, jsAdd_assoc]

theorem jsMean_eq (rs : List JQ) :
    jsMean rs = jsDiv (rs.foldr jsAdd (some 0)) (some ((rs.length : ℚ))) := by
  rw [jsMean, foldl_jsAdd_foldr, jsAdd_zero_left]

theorem foldl_jsAddf_foldr (f : JQ → JQ) : ∀ (l : List JQ) (x : JQ),
    l.foldl (fun s m => jsAdd s (f m)) x = jsAdd x ((l.map f).foldr jsAdd (some 0)) := by
  intro l
  induction l with
  | nil => intro x; simp [jsAdd_zero_right]
  | cons b t ih =>
    intro x
    rw [List.foldl_cons, ih, List.map_cons, List.foldr_cons, jsAdd_assoc]

theorem mem_firstKeys_aux : ∀ (d : List (String × JQ)) (acc : List String) (t : String),
    (t ∈ d.foldl (fun acc p => if p.1 ∈ acc then acc else acc ++ [p.1]) acc
      ↔ t ∈ acc ∨ t ∈ d.map Prod.fst) := by
  intro d
  induction d with
  | nil => intro acc t; simp
  | cons p d ih =>
    intro acc t
    rw [List.foldl_cons, ih, List.map_cons, List.mem_cons]
    by_cases hp : p.1 ∈ acc
    · rw [if_pos hp]
      constructor
      · rintro (h | h)
        · exact Or.inl h
        · exact Or.inr (Or.inr h)
      · rintro (h | h | h)
        · exact Or.inl h
        · exact Or.inl (h ▸ hp)
        · exact Or.inr h
    · rw [if_neg hp]
      rw [List.mem_append, List.mem_singleton]
      tauto

theorem mem_firstKeys (d : List (String × JQ)) (t : String) :
    t ∈ firstKeys d ↔ t ∈ d.map Prod.fst := by
  rw [firstKeys, mem_firstKeys_aux]
  simp

theorem firstKeys_nodup_aux : ∀ (d : List (String × JQ)) (acc : List String), acc.Nodup →
    (d.foldl (fun acc p => if p.1 ∈ acc then acc else acc ++ [p.1]) acc).Nodup := by
  intro d
  induction d with
  | nil => intro acc h; exact h
  | cons p d ih =>
    intro acc h
    rw [List.foldl_cons]
    by_cases hp : p.1 ∈ acc
    · rw [if_pos hp]; exact ih acc h
    · rw [if_neg hp]
      exact ih (acc ++ [p.1]) (by simp [List.nodup_append, h, hp])

theorem firstKeys_nodup (d : List (String × JQ)) : (firstKeys d).Nodup :=
  firstKeys_nodup_aux d [] List.nodup_nil

theorem firstKeys_append_single (d : List (String × JQ)) (p : String × JQ) :
    firstKeys (d ++ [p])
      = if p.1 ∈ firstKeys d then firstKeys d else firstKeys d ++ [p.1] := by
  rw [firstKeys, List.foldl_append]
  rfl

theorem ratesOf_append_single (d : List (String × JQ)) (t : String) (r : JQ) (u : String) :
    ratesOf (d ++ [(t, r)]) u = ratesOf d u ++ (if t = u then [r] else []) := by
  rw [ratesOf, ratesOf, List.filter_append, List.map_append]
  congr 1
  by_cases h : t = u
  · simp [h]
  · simp [h]

theorem ratesOf_eq_nil (d : List (String × JQ)) (t : String) (h : t ∉ d.map Prod.fst) :
    ratesOf d t = [] := by
  rw [ratesOf]
  have hfil : d.filter (fun p => p.1 = t) = [] := by
    rw [List.filter_eq_nil_iff]
    intro p hp
    simp only [decide_eq_true_eq]
    intro hpt
    exact h (List.mem_map.mpr ⟨p, hp, hpt⟩)
  rw [hfil]
  rfl

theorem pushRate_not_mem : ∀ (g : List (String × List JQ)) (t : String) (r : JQ),
    (∀ e ∈ g, e.1 ≠ t) → pushRate g t r = g ++ [(t, [r])] := by
  intro g
  induction g with
  | nil => intro t r _; rfl
  | cons e rest ih =>
    intro t r h
    obtain ⟨t2, rs⟩ := e
    have ht2 : t2 ≠ t := h (t2, rs) (List.mem_cons_self _ _)
    rw [pushRate, if_neg ht2, ih t r fun e he => h e (List.mem_cons_of_mem _ he)]
    rfl

theorem pushRate_update : ∀ (ks : List String) (F : String → List JQ) (t : String) (r : JQ),
    ks.Nodup → t ∈ ks →
    pushRate (ks.map fun u => (u, F u)) t r
      = ks.map fun u => (u, F u ++ (if t = u then [r] else [])) := by
  intro ks
  induction ks with
  | nil => intro F t r _ h; exact absurd h (by simp)
  | cons k ks ih =>
    intro F t r hnd hmem
    rw [List.map_cons, List.map_cons, pushRate]
    by_cases hk : k = t
    · rw [if_pos hk]
      have hknot : t ∉ ks := by
        rw [← hk]
        exact (List.nodup_cons.mp hnd).1
      congr 1
      · rw [← hk]
        simp
      · apply (List.map_congr_left ?_).symm
        intro u hu
        have hut : t ≠ u := fun h => hknot (h ▸ hu)
        rw [if_neg hut, List.append_nil]
    · rw [if_neg hk]
      have htks : t ∈ ks := by
        rcases List.mem_cons.mp hmem with h | h
        · exact absurd h.symm hk
        · exact h
      rw [ih F t r (List.nodup_cons.mp hnd).2 htks]
      congr 1
      have hkt : t ≠ k := fun h => hk h.symm
      rw [if_neg hkt, List.append_nil]

theorem pushRate_spec (done : List (String × JQ)) (t : String) (r : JQ) :
    pushRate ((firstKeys done).map fun u => (u, ratesOf done u)) t r
      = (firstKeys (done ++ [(t, r)])).map fun u => (u, ratesOf (done ++ [(t, r)]) u) := by
  rw [firstKeys_append_single]
  by_cases hmem : t ∈ firstKeys done
  · rw [if_pos hmem]
    rw [pushRate_update (firstKeys done) (ratesOf done) t r (firstKeys_nodup done) hmem]
    apply List.map_congr_left
    intro u _
    rw [ratesOf_append_single]
  · rw [if_neg hmem]
    rw [pushRate_not_mem _ t r ?hne]
    case hne =>
      intro e he
      obtain ⟨u, hu, hue⟩ := List.mem_map.mp he
      intro het
      rw [← hue] at het
      exact hmem (het ▸ hu)
    rw [List.map_append]
    congr 1
    · apply List.map_congr_left
      intro u hu
      have hut : t ≠ u := fun h => hmem (h ▸ hu)
      rw [ratesOf_append_single, if_neg hut, List.append_nil]
    · rw [List.map_singleton]
      have h0 : ratesOf done t = [] :=
        ratesOf_eq_nil done t fun h => hmem ((mem_firstKeys done t).mpr h)
      rw [ratesOf_append_single, h0, if_pos rfl, List.nil_append]

theorem tzGroups_spec_aux : ∀ (rest done : List (String × JQ)),
    rest.foldl (fun acc p => pushRate acc p.1 p.2)
        ((firstKeys done).map fun u => (u, ratesOf done u))
      = (firstKeys (done ++ rest)).map fun u => (u, ratesOf (done ++ rest) u) := by
  intro rest
  induction rest with
  | nil => intro done; simp
  | cons p rest ih =>
    intro done
    rw [List.foldl_cons]
    have hstep := pushRate_spec done p.1 p.2
    rw [Prod.mk.eta] at hstep
    rw [hstep, ih (done ++ [p]), List.append_assoc]
    rfl

/-- The incremental map-based grouping of the source equals the declarative
filter-based grouping: keys in first-appearance order, each with its rates in
order. -/
theorem tzGroups_eq (pairs : List (String × JQ)) :
    tzGroups pairs = (firstKeys pairs).map fun t => (t, ratesOf pairs t) := by
  have h := tzGroups_spec_aux pairs []
  simpa [tzGroups, firstKeys] using h

/-- The source's parity pipeline (incremental grouping, left folds) computes
exactly the declarative reference `specGroupParity` on any tagged rate
list. -/
theorem codeParity_eq_spec (pairs : List (String × JQ)) :
    jsMax (some 0) (jsSub (some 100) (jsMul (tzVariance (tzMeans pairs)) (some 100)))
      = specGroupParity pairs := by
  have hmeans : tzMeans pairs = specMeans pairs := by
    rw [tzMeans, tzGroups_eq, List.map_map, specMeans]
    apply List.map_congr_left
    intro t _
    simp only [Function.comp]
    rw [jsMean_eq]
  have hvar : tzVariance (specMeans pairs) = specVariance pairs := by
    rw [tzVariance, specVariance]
    by_cases hlen : 1 < (specMeans pairs).length
    · rw [if_pos hlen, if_pos hlen]
      rw [jsMean_eq]
      rw [foldl_jsAddf_foldr (fun m =>
        jsMul
          (jsSub m (jsDiv ((specMeans pairs).foldr jsAdd (some 0))
            (some ((((specMeans pairs).length : ℚ))))))
          (jsSub m (jsDiv ((specMeans pairs).foldr jsAdd (some 0))
            (some ((((specMeans pairs).length : ℚ))))))) (specMeans pairs) (some 0)]
      rw [jsAdd_zero_left]
    · rw [if_neg hlen, if_neg hlen]
  rw [hmeans, hvar, specGroupParity]

/-- Claim C8, amended: the parity the code returns is the spec's pipeline
(mean fill rate per group, variance of the group means, `max(0, 100 -
variance * 100)`) applied to the ELIGIBLE demands only, keyed by timezone
with default `"UTC"`; moreover with zero or one group the reference pipeline
yields exactly 100.  (The original claim — all allocations, default
`"UNSPECIFIED"` — is refuted by `c8_counterexample`.) -/
theorem c8_amended (sink : AtomDecision → Except String TrailEntry) (clock : Clock)
    (demands : List DemandInfo) (capacity : JQ) (r : AllocationResult)
    (h : allocateResources sink clock demands capacity = Except.ok r)
    (hv : ¬(validDemands demands).length = 0) :
    r.fairness_metrics.timezone_parity
      = specGroupParity (tzPairs (validDemands demands) (allAllocations demands capacity))
    ∧ (∀ pairs : List (String × JQ), (firstKeys pairs).length ≤ 1 →
        specGroupParity pairs = some 100) := by
  constructor
  · have hfields := (allocateResources_ok_fields sink clock demands capacity r h).1
    have hmet : r.fairness_metrics = (resultCore demands capacity).2.2.2.2 := by
      rw [← hfields]
    rw [resultCore, if_neg hv] at hmet
    rw [hmet]
    show timezoneParity demands capacity = _
    rw [timezoneParity, codeParity_eq_spec]
  · intro pairs hlen
    rw [specGroupParity, specVariance]
    have hlen2 : ¬ 1 < (specMeans pairs).length := by
      rw [specMeans, List.length_map]
      omega
    rw [if_neg hlen2]
    norm_num [jsMul, jsSub, jsMax]

/-- Witness for the amended claim C8: at the two-demand input of the
counterexample (one eligible with tag `"A"`, one ineligible), the returned
parity (100) equals the reference pipeline on the eligible pair list, and a
one-group pair list yields 100. -/
theorem c8_amended_witness :
    allocateResources okSink clock0
      [mkD ("a") (some 1) (some ("A")) (some (some 85)),
        mkD ("b") (some 1) (some ("B")) (some (some 50))] (some 1)
      = Except.ok
        { allocations :=
            [{ agent_id := ("a"), allocated := some 1, requested := some 1,
               fill_rate := some 1 },
             { agent_id := ("b"), allocated := some 0, requested := some 1,
               fill_rate := some 0 }]
          total_allocated := some 1
          total_requested := some 2
          efficiency := some 100
          fairness_metrics :=
            { gini_coefficient := some (1 / 2), min_fill_rate := some 0,
              max_fill_rate := some 1, avg_fill_rate := some (1 / 2),
              timezone_parity := some 100 }
          timestamp := ("t1")
          provenance := { atom_tag := ("ATOM-ALLOC-0"), trail_id := ("trail-1") } }
    ∧ (some (100 : ℚ) : JQ)
        = specGroupParity (tzPairs
            (validDemands [mkD ("a") (some 1) (some ("A")) (some (some 85)),
              mkD ("b") (some 1) (some ("B")) (some (some 50))])
            (allAllocations [mkD ("a") (some 1) (some ("A")) (some (some 85)),
              mkD ("b") (some 1) (some ("B")) (some (some 50))] (some 1)))
    ∧ specGroupParity [(("X"), some 1)] = some 100 := by
  have hrun : allocateResources okSink clock0
      [mkD ("a") (some 1) (some ("A")) (some (some 85)),
        mkD ("b") (some 1) (some ("B")) (some (some 50))] (some 1)
      = Except.ok
        { allocations :=
            [{ agent_id := ("a"), allocated := some 1, requested := some 1,
               fill_rate := some 1 },
             { agent_id := ("b"), allocated := some 0, requested := some 1,
               fill_rate := some 0 }]
          total_allocated := some 1
          total_requested := some 2
          efficiency := some 100
          fairness_metrics :=
            { gini_coefficient := some (1 / 2), min_fill_rate := some 0,
              max_fill_rate := some 1, avg_fill_rate := some (1 / 2),
              timezone_parity := some 100 }
          timestamp := ("t1")
          provenance := { atom_tag := ("ATOM-ALLOC-0"), trail_id := ("trail-1") } } := by
    decide
  have h := c8_amended okSink clock0
    [mkD ("a") (some 1) (some ("A")) (some (some 85)),
      mkD ("b") (some 1) (some ("B")) (some (some 50))] (some 1) _ hrun (by decide)
  exact ⟨hrun, h.1, h.2 [(("X"), some 1)] (by decide)⟩

end QDI
